import Mathlib

/-!
# Verification of the signal_equalizer DSP kernel

Shallow embedding of `backend/app/dsp/fft.py` and `backend/app/dsp/stft.py`
over exact real/complex arithmetic (floating-point `float64`/`complex128`
values are modelled by `ℝ`/`ℂ`; the spec's floating-point tolerances become
exact equalities in this model).  NumPy arrays are modelled as Lean lists;
the in-place mutation inside `_fft_fast_impl` and `inverse_stft` is modelled
by explicit state passing over total index functions `ℕ → ℂ` / `ℕ → ℝ`
(reads and writes only ever touch indices below the array length).
Python `raise ValueError(msg)` is modelled as `Except.error msg`.
-/

namespace SignalEq

noncomputable section

open Complex

/-- Functional model of an in-place array write `X[i] = v`. -/
def upd {α : Type} (X : ℕ → α) (i : ℕ) (v : α) : ℕ → α :=
  fun n => if n = i then v else X n

/-! ## fft.py -/

/-- `_is_power_of_two` from fft.py:
`return value > 0 and (value & (value - 1)) == 0`
(the Python `int` here is a NumPy array size, hence a natural number). -/
def _is_power_of_two (value : ℕ) : Bool :=
  decide (0 < value) && (value &&& (value - 1) == 0)

/-- The inner `while j >= bit and bit > 0: j -= bit; bit >>= 1` loop of the
bit-reversal pass in `_fft_fast_impl`, followed by the `j += bit` update. -/
def revStep (j bit : ℕ) : ℕ :=
  if 0 < bit ∧ bit ≤ j then revStep (j - bit) (bit / 2) else j + bit
termination_by bit
decreasing_by exact Nat.div_lt_self (by omega) (by omega)

/-- One iteration of the `for i in range(1, N)` bit-reversal loop of
`_fft_fast_impl`: update the running index `j` (with `bit = N >> 1`) and
swap `X[i]` and `X[j]` when `i < j`. -/
def bitrevIter (N : ℕ) (s : (ℕ → ℂ) × ℕ) (i : ℕ) : (ℕ → ℂ) × ℕ :=
  let j := revStep s.2 (N / 2)
  (if i < j then upd (upd s.1 i (s.1 j)) j (s.1 i) else s.1, j)

/-- The whole bit-reversal permutation pass of `_fft_fast_impl`
(the `for i in range(1, N)` loop, with `j` initialised to `0`). -/
def bitrevPass (N : ℕ) (X : ℕ → ℂ) : ℕ → ℂ :=
  ((List.range' 1 (N - 1)).foldl (bitrevIter N) (X, 0)).1

/-- `wlen = np.exp(-2j * np.pi / length)` from `_fft_fast_impl`. -/
def wlen (length : ℕ) : ℂ :=
  Complex.exp (-(2 * Real.pi * Complex.I) / length)

/-- The body of the `for j in range(half)` butterfly loop of
`_fft_fast_impl`, acting on the state `(X, w)`:
`u = X[i+j]; v = w * X[i+j+half]; X[i+j] = u+v; X[i+j+half] = u-v; w *= wlen`. -/
def butterflyStep (i half : ℕ) (wl : ℂ) (s : (ℕ → ℂ) × ℂ) (j : ℕ) :
    (ℕ → ℂ) × ℂ :=
  let u := s.1 (i + j)
  let v := s.2 * s.1 (i + j + half)
  (upd (upd s.1 (i + j) (u + v)) (i + j + half) (u - v), s.2 * wl)

/-- One block of butterflies (`w = 1 + 0j; half = length // 2;
for j in range(half): ...`) starting at offset `i`. -/
def blockPass (wl : ℂ) (half : ℕ) (X : ℕ → ℂ) (i : ℕ) : ℕ → ℂ :=
  ((List.range half).foldl (butterflyStep i half wl) (X, 1)).1

/-- The `for i in range(0, N, length)` loop of one butterfly stage;
`range(0, N, length)` has `⌈N / length⌉` elements. -/
def stagePass (N length : ℕ) (X : ℕ → ℂ) : ℕ → ℂ :=
  (List.range' 0 ((N + length - 1) / length) length).foldl
    (blockPass (wlen length) (length / 2)) X

/-- The outer `length = 2; while length <= N: ...; length *= 2` loop of
`_fft_fast_impl`.  (The `0 < length` conjunct only rules out the state
`length = 0`, on which the Python loop would not terminate; the algorithm
only ever runs it with `length ≥ 2`.) -/
def stagesLoop (N length : ℕ) (X : ℕ → ℂ) : ℕ → ℂ :=
  if 0 < length ∧ length ≤ N then
    stagesLoop N (2 * length) (stagePass N length X)
  else X
termination_by N + 1 - length
decreasing_by omega

/-- `_fft_fast_impl` from fft.py: copy the input, bit-reversal permute,
run the butterfly stages, return the resulting array. -/
def _fft_fast_impl (x : List ℂ) : List ℂ :=
  (List.range x.length).map
    (stagesLoop x.length 2 (bitrevPass x.length (fun i => x.getD i 0)))

/-- `_ifft_fast_impl` from fft.py:
`x = np.conj(_fft_fast_impl(np.conj(X))) / N`. -/
def _ifft_fast_impl (X : List ℂ) : List ℂ :=
  (_fft_fast_impl (X.map (starRingEnd ℂ))).map
    (fun z => (starRingEnd ℂ) z / (X.length : ℂ))

/-- `fft_fast` from fft.py (public wrapper with length validation). -/
def fft_fast (x : List ℂ) : Except String (List ℂ) :=
  if ¬ _is_power_of_two x.length then
    .error "fft_fast requires input length to be a power of two"
  else .ok (_fft_fast_impl x)

/-- `ifft_fast` from fft.py (public wrapper with length validation). -/
def ifft_fast (X : List ℂ) : Except String (List ℂ) :=
  if ¬ _is_power_of_two X.length then
    .error "ifft_fast requires input length to be a power of two"
  else .ok (_ifft_fast_impl X)

/-! ## stft.py -/

/-- `hann_window` from stft.py. -/
def hann_window (window_size : ℕ) : Except String (List ℝ) :=
  if window_size ≤ 1 then .error "window_size must be greater than 1"
  else .ok ((List.range window_size).map (fun i : ℕ =>
    0.5 * (1 - Real.cos ((2 * Real.pi * (i : ℝ)) / ((window_size : ℝ) - 1)))))

/-- `_validate_fft_params` from stft.py.  The source's power-of-two test is
the floating-point `np.log2(fft_size).is_integer()`; it is modelled here by
the exact-arithmetic power-of-two test (the two agree on every size for
which `np.log2` is exact). -/
def _validate_fft_params (window_size hop_size fft_size : ℕ) :
    Except String Unit :=
  if fft_size < window_size then .error "fft_size must be >= window_size"
  else if hop_size ≤ 0 then .error "hop_size must be positive"
  else if ¬ _is_power_of_two fft_size then
    .error "fft_size must be a power of two for fft_fast"
  else .ok ()

/-- `compute_stft_frames` from stft.py.  The input signal is already a 1-D
real list, so the `ndim`/`flatten` branch of the source is the identity. -/
def compute_stft_frames (signal : List ℝ)
    (window_size hop_size fft_size : ℕ) : Except String (List (List ℂ)) :=
  (_validate_fft_params window_size hop_size fft_size).bind (fun _ =>
  if signal.length < window_size then
    .error "signal must be at least as long as window_size"
  else
  (hann_window window_size).bind (fun hann =>
  (List.range (1 + (signal.length - window_size) / hop_size)).mapM
    (fun frame_idx =>
      fft_fast
        ((List.zipWith (fun s h => ((s * h : ℝ) : ℂ))
            ((signal.drop (frame_idx * hop_size)).take window_size) hann)
          ++ List.replicate (fft_size - window_size) 0))))

/-- The body of the `for frame_idx in range(num_frames)` loop of
`inverse_stft`, acting on the pair (output buffer, window accumulator):
`time_domain = ifft_fast(frames[frame_idx]); start = frame_idx * hop_size;
output[start:end] += np.real(time_domain[:window_size]);
window_accum[start:end] += hann`. -/
def istftIter (frames : List (List ℂ)) (window_size hop_size : ℕ)
    (hann : List ℝ) (s : (ℕ → ℝ) × (ℕ → ℝ)) (frame_idx : ℕ) :
    Except String ((ℕ → ℝ) × (ℕ → ℝ)) :=
  (ifft_fast (frames.getD frame_idx [])).bind (fun td =>
    let start := frame_idx * hop_size
    .ok (fun n => if start ≤ n ∧ n < start + window_size
            then s.1 n + (td.getD (n - start) 0).re else s.1 n,
         fun n => if start ≤ n ∧ n < start + window_size
            then s.2 n + hann.getD (n - start) 0 else s.2 n))

/-- `inverse_stft` from stft.py.  `frames` is the 2-D NumPy array modelled
as a list of rows; its column count `fft_size = frames.shape[1]` is the
length of the first row (theorems about it assume the NumPy rectangularity
invariant).  The final `output[non_zero] /= window_accum[non_zero]`
masked division keeps samples whose accumulated window weight is
`≤ 1e-12` untouched. -/
def inverse_stft (frames : List (List ℂ)) (window_size hop_size : ℕ) :
    Except String (List ℝ) :=
  (_validate_fft_params window_size hop_size (frames.headD []).length).bind
    (fun _ =>
  (hann_window window_size).bind (fun hann =>
  ((List.range frames.length).foldlM
      (istftIter frames window_size hop_size hann)
      (fun _ => 0, fun _ => 0)).bind (fun s =>
  .ok ((List.range ((frames.length - 1) * hop_size + window_size)).map
    (fun n => if s.2 n > 1e-12 then s.1 n / s.2 n else s.1 n)))))

/-! ## Specification-side definitions

These follow the words of the specification (not the source); they are the
comparison targets for the refinement claims. -/

/-- The unnormalised discrete Fourier transform, as written in the spec:
`X[k] = Σ_n x[n] · exp(-2πi·n·k/N)`. -/
def dft (x : List ℂ) : List ℂ :=
  (List.range x.length).map (fun k : ℕ =>
    ∑ n ∈ Finset.range x.length,
      x.getD n 0 * Complex.exp
        (-(2 * Real.pi * Complex.I * (n : ℂ) * (k : ℂ)) / (x.length : ℂ)))

/-- The spec's §4.4 per-row reconstruction step, which differs from the
source's `istftIter` in multiplying the synthesised segment elementwise by
the window curve before adding it into the output buffer. -/
def istftIterSpec (frames : List (List ℂ)) (window_size hop_size : ℕ)
    (hann : List ℝ) (s : (ℕ → ℝ) × (ℕ → ℝ)) (frame_idx : ℕ) :
    Except String ((ℕ → ℝ) × (ℕ → ℝ)) :=
  (ifft_fast (frames.getD frame_idx [])).bind (fun td =>
    let start := frame_idx * hop_size
    .ok (fun n => if start ≤ n ∧ n < start + window_size
            then s.1 n +
              hann.getD (n - start) 0 * (td.getD (n - start) 0).re
            else s.1 n,
         fun n => if start ≤ n ∧ n < start + window_size
            then s.2 n + hann.getD (n - start) 0 else s.2 n))

/-- The spec's §4.4 Reconstructor: `inverse_stft` with the per-row step
replaced by the windowed-synthesis step `istftIterSpec`. -/
def inverse_stft_spec (frames : List (List ℂ)) (window_size hop_size : ℕ) :
    Except String (List ℝ) :=
  (_validate_fft_params window_size hop_size (frames.headD []).length).bind
    (fun _ =>
  (hann_window window_size).bind (fun hann =>
  ((List.range frames.length).foldlM
      (istftIterSpec frames window_size hop_size hann)
      (fun _ => 0, fun _ => 0)).bind (fun s =>
  .ok ((List.range ((frames.length - 1) * hop_size + window_size)).map
    (fun n => if s.2 n > 1e-12 then s.1 n / s.2 n else s.1 n)))))


/-! ## Arithmetic groundwork: powers of two and bit reversal -/


lemma land_eq_zero_iff (a b : ℕ) :
    a &&& b = 0 ↔ ∀ i, (a.testBit i && b.testBit i) = false := by
  constructor
  · intro h i
    rw [← Nat.testBit_land, h, Nat.zero_testBit]
  · intro h
    apply Nat.eq_of_testBit_eq
    intro i
    rw [Nat.testBit_land, Nat.zero_testBit, h]

lemma exists_testBit_of_ne_zero {m : ℕ} (hm : m ≠ 0) :
    ∃ i, m.testBit i = true := by
  by_contra h
  push_neg at h
  exact hm (Nat.eq_of_testBit_eq (fun i => by
    rw [Nat.zero_testBit]
    exact Bool.eq_false_iff.mpr (h i)))

lemma land_double (m : ℕ) (hm : 1 ≤ m) :
    ((2 * m) &&& (2 * m - 1) = 0) ↔ (m &&& (m - 1) = 0) := by
  rw [land_eq_zero_iff, land_eq_zero_iff]
  constructor
  · intro h i
    have := h (i + 1)
    rwa [Nat.testBit_succ, Nat.testBit_succ,
      show 2 * m / 2 = m by omega, show (2 * m - 1) / 2 = m - 1 by omega] at this
  · intro h i
    cases i with
    | zero =>
      have h0 : (2 * m).testBit 0 = false := by
        rw [Nat.testBit_zero]
        simp only [decide_eq_false_iff_not]
        omega
      simp [h0]
    | succ i =>
      rw [Nat.testBit_succ, Nat.testBit_succ,
        show 2 * m / 2 = m by omega, show (2 * m - 1) / 2 = m - 1 by omega]
      exact h i

lemma land_odd {m : ℕ} (hm : 1 ≤ m) :
    ¬((2 * m + 1) &&& (2 * m) = 0) := by
  rw [land_eq_zero_iff]
  intro h
  obtain ⟨i, hi⟩ := exists_testBit_of_ne_zero (by omega : m ≠ 0)
  have := h (i + 1)
  rw [Nat.testBit_succ, Nat.testBit_succ,
    show (2 * m + 1) / 2 = m by omega, show 2 * m / 2 = m by omega, hi] at this
  simp at this

lemma pow_two_land (n : ℕ) :
    (0 < n ∧ n &&& (n - 1) = 0) ↔ ∃ k, n = 2 ^ k := by
  induction n using Nat.strong_induction_on with
  | _ n ih =>
    rcases Nat.lt_or_ge n 2 with h2 | h2
    · interval_cases n
      · constructor
        · intro h; omega
        · intro ⟨k, hk⟩
          have : 0 < 2 ^ k := Nat.pos_pow_of_pos k (by norm_num)
          omega
      · constructor
        · intro _; exact ⟨0, rfl⟩
        · intro _; exact ⟨by omega, by decide⟩
    · rcases Nat.even_or_odd n with ⟨m, hm⟩ | ⟨m, hm⟩
      · have hm1 : 1 ≤ m := by omega
        have hrec := ih m (by omega)
        constructor
        · intro ⟨_, hl⟩
          have hml : m &&& (m - 1) = 0 := by
            rw [← land_double m hm1]
            rwa [show 2 * m = n by omega]
          obtain ⟨k, hk⟩ := hrec.mp ⟨by omega, hml⟩
          exact ⟨k + 1, by rw [pow_succ]; omega⟩
        · intro ⟨k, hk⟩
          have hk1 : k ≠ 0 := by
            rintro rfl
            simp at hk
            omega
          have h2k : 2 ^ k = 2 * 2 ^ (k - 1) := by
            conv_lhs => rw [show k = (k - 1) + 1 by omega]
            rw [pow_succ]
            ring
          have hmk : m = 2 ^ (k - 1) := by omega
          have hml := (hrec.mpr ⟨k - 1, hmk⟩).2
          refine ⟨by omega, ?_⟩
          have hd := (land_double m hm1).mpr hml
          rwa [show 2 * m = n by omega] at hd
      · have hm1 : 1 ≤ m := by omega
        constructor
        · intro ⟨_, hl⟩
          exfalso
          apply land_odd hm1
          rwa [show 2 * m + 1 = n by omega, show 2 * m = n - 1 by omega]
        · intro ⟨k, hk⟩
          exfalso
          have hk1 : k ≠ 0 := by
            rintro rfl
            omega
          have h2k : 2 ^ k = 2 * 2 ^ (k - 1) := by
            conv_lhs => rw [show k = (k - 1) + 1 by omega]
            rw [pow_succ]
            ring
          omega

def reverseBits : ℕ → ℕ → ℕ
  | 0, _ => 0
  | s + 1, n => n % 2 * 2 ^ s + reverseBits s (n / 2)

lemma reverseBits_lt (s n : ℕ) : reverseBits s n < 2 ^ s := by
  induction s generalizing n with
  | zero => simp [reverseBits]
  | succ s ih =>
    have h1 := ih (n / 2)
    have h2 : n % 2 ≤ 1 := by omega
    have : reverseBits (s + 1) n = n % 2 * 2 ^ s + reverseBits s (n / 2) := rfl
    rw [this, pow_succ]
    nlinarith

lemma reverseBits_zero (s : ℕ) : reverseBits s 0 = 0 := by
  induction s with
  | zero => rfl
  | succ s ih => simp [reverseBits, ih]

lemma reverseBits_alt (s n : ℕ) (hn : n < 2 ^ (s + 1)) :
    reverseBits (s + 1) n
      = 2 * reverseBits s (n % 2 ^ s) + (if 2 ^ s ≤ n then 1 else 0) := by
  induction s generalizing n with
  | zero =>
    simp only [reverseBits, pow_zero]
    split_ifs <;> omega
  | succ s ih =>
    have hdiv : n / 2 < 2 ^ (s + 1) := by
      rw [pow_succ] at hn
      omega
    have hmod2 : n % 2 ^ (s + 1) % 2 = n % 2 :=
      Nat.mod_mod_of_dvd n (dvd_pow_self 2 (by omega))
    have hdm : n % 2 ^ (s + 1) / 2 = n / 2 % 2 ^ s := by
      have := Nat.mod_mul_right_div_self n 2 (2 ^ s)
      rwa [show 2 * 2 ^ s = 2 ^ (s + 1) by rw [pow_succ]; ring] at this
    have htop : (2 ^ s ≤ n / 2) ↔ (2 ^ (s + 1) ≤ n) := by
      rw [Nat.le_div_iff_mul_le (by omega : 0 < 2), pow_succ]
    calc reverseBits (s + 2) n
        = n % 2 * 2 ^ (s + 1) + reverseBits (s + 1) (n / 2) := rfl
      _ = n % 2 * 2 ^ (s + 1) +
            (2 * reverseBits s (n / 2 % 2 ^ s) + (if 2 ^ s ≤ n / 2 then 1 else 0)) := by
          rw [ih (n / 2) hdiv]
      _ = 2 * (n % 2 ^ (s + 1) % 2 * 2 ^ s + reverseBits s (n % 2 ^ (s + 1) / 2)) +
            (if 2 ^ (s + 1) ≤ n then 1 else 0) := by
          rw [hmod2, hdm]
          simp only [htop]
          rw [pow_succ]
          ring
      _ = 2 * reverseBits (s + 1) (n % 2 ^ (s + 1)) + (if 2 ^ (s + 1) ≤ n then 1 else 0) := rfl

lemma reverseBits_involution (s n : ℕ) (hn : n < 2 ^ s) :
    reverseBits s (reverseBits s n) = n := by
  induction s generalizing n with
  | zero =>
    simp [reverseBits]
    omega
  | succ s ih =>
    have hr := reverseBits_lt s (n / 2)
    have hm : reverseBits (s + 1) n < 2 ^ (s + 1) := reverseBits_lt (s + 1) n
    rw [reverseBits_alt s _ hm]
    have hrep : reverseBits (s + 1) n = n % 2 * 2 ^ s + reverseBits s (n / 2) := rfl
    have hmod : reverseBits (s + 1) n % 2 ^ s = reverseBits s (n / 2) := by
      rw [hrep, Nat.add_mod, Nat.mul_mod_left]
      simp [Nat.mod_eq_of_lt hr]
    rw [hmod, ih (n / 2) (by rw [pow_succ] at hn; omega)]
    by_cases hpar : n % 2 = 1
    · have htop : 2 ^ s ≤ reverseBits (s + 1) n := by
        rw [hrep, hpar]
        omega
      rw [if_pos htop]
      omega
    · have hpar0 : n % 2 = 0 := by omega
      have htop : ¬ 2 ^ s ≤ reverseBits (s + 1) n := by
        rw [hrep, hpar0]
        omega
      rw [if_neg htop]
      omega

lemma revStep_correct (s i : ℕ) (hi : i + 1 < 2 ^ (s + 1)) :
    revStep (reverseBits (s + 1) i) (2 ^ s) = reverseBits (s + 1) (i + 1) := by
  induction s generalizing i with
  | zero =>
    have : i = 0 := by omega
    subst this
    rw [revStep]
    simp [reverseBits]
  | succ s ih =>
    by_cases hpar : i % 2 = 0
    · have hrep : reverseBits (s + 2) i = reverseBits (s + 1) (i / 2) := by
        show i % 2 * 2 ^ (s + 1) + reverseBits (s + 1) (i / 2) = _
        rw [hpar]
        ring
      have hlt := reverseBits_lt (s + 1) (i / 2)
      rw [hrep, revStep, if_neg (by omega)]
      show _ = (i + 1) % 2 * 2 ^ (s + 1) + reverseBits (s + 1) ((i + 1) / 2)
      have h1 : (i + 1) % 2 = 1 := by omega
      have h2 : (i + 1) / 2 = i / 2 := by omega
      rw [h1, h2]
      ring
    · have hrep : reverseBits (s + 2) i
          = 2 ^ (s + 1) + reverseBits (s + 1) (i / 2) := by
        show i % 2 * 2 ^ (s + 1) + reverseBits (s + 1) (i / 2) = _
        have : i % 2 = 1 := by omega
        rw [this]
        ring
      have hlt := reverseBits_lt (s + 1) (i / 2)
      rw [hrep, revStep, if_pos (by constructor <;> omega)]
      have hsub : 2 ^ (s + 1) + reverseBits (s + 1) (i / 2) - 2 ^ (s + 1)
          = reverseBits (s + 1) (i / 2) := by omega
      have hdiv2 : 2 ^ (s + 1) / 2 = 2 ^ s := by
        rw [pow_succ]
        omega
      rw [hsub, hdiv2, ih (i / 2) (by rw [pow_succ] at hi; omega)]
      show _ = (i + 1) % 2 * 2 ^ (s + 1) + reverseBits (s + 1) ((i + 1) / 2)
      have h1 : (i + 1) % 2 = 0 := by omega
      have h2 : (i + 1) / 2 = i / 2 + 1 := by omega
      rw [h1, h2]
      ring



/-! ## Correctness of the bit-reversal pass -/

lemma upd_same {α : Type} (X : ℕ → α) (i : ℕ) (v : α) : upd X i v i = v := by
  simp [upd]

lemma upd_other {α : Type} (X : ℕ → α) (i : ℕ) (v : α) (n : ℕ) (h : ¬ n = i) :
    upd X i v n = X n := by
  simp [upd, h]

lemma bitrevLoop_invariant (s : ℕ) (X : ℕ → ℂ) (m : ℕ) (hm : m < 2 ^ s) :
    ((List.range' 1 m).foldl (bitrevIter (2 ^ s)) (X, 0)).2 = reverseBits s m ∧
    ∀ p, ((List.range' 1 m).foldl (bitrevIter (2 ^ s)) (X, 0)).1 p
        = if p < 2 ^ s ∧ (p ≤ m ∨ reverseBits s p ≤ m) then X (reverseBits s p)
          else X p := by
  induction m with
  | zero =>
    refine ⟨by simp [reverseBits_zero], ?_⟩
    intro p
    simp only [List.range', List.foldl]
    by_cases hp : p < 2 ^ s ∧ (p ≤ 0 ∨ reverseBits s p ≤ 0)
    · rw [if_pos hp]
      obtain ⟨hplt, hp0⟩ := hp
      have hp' : p = 0 := by
        rcases hp0 with h | h
        · omega
        · have h0 : reverseBits s p = 0 := by omega
          have hinv := reverseBits_involution s p hplt
          rw [h0, reverseBits_zero] at hinv
          omega
      subst hp'
      rw [reverseBits_zero]
    · rw [if_neg hp]
  | succ m ih =>
    obtain ⟨hsnd, hfst⟩ := ih (by omega)
    obtain ⟨t, rfl⟩ : ∃ t, s = t + 1 := by
      cases s with
      | zero => exfalso; rw [pow_zero] at hm; omega
      | succ t => exact ⟨t, rfl⟩
    have hconcat : List.range' 1 (m + 1) = List.range' 1 m ++ [m + 1] := by
      have h := @List.range'_concat 1 1 m
      simpa [Nat.add_comm] using h
    rw [hconcat, List.foldl_append]
    simp only [List.foldl_cons, List.foldl_nil]
    set st := (List.range' 1 m).foldl (bitrevIter (2 ^ (t + 1))) (X, 0) with hst
    have hj : revStep st.2 (2 ^ (t + 1) / 2) = reverseBits (t + 1) (m + 1) := by
      rw [hsnd, show 2 ^ (t + 1) / 2 = 2 ^ t by rw [pow_succ]; omega]
      exact revStep_correct t m hm
    have hiter1 : (bitrevIter (2 ^ (t + 1)) st (m + 1)).1
        = if m + 1 < reverseBits (t + 1) (m + 1) then
            upd (upd st.1 (m + 1) (st.1 (reverseBits (t + 1) (m + 1))))
                (reverseBits (t + 1) (m + 1)) (st.1 (m + 1))
          else st.1 := by
      simp only [bitrevIter, hj]
    have hiter2 : (bitrevIter (2 ^ (t + 1)) st (m + 1)).2
        = reverseBits (t + 1) (m + 1) := by
      simp only [bitrevIter, hj]
    refine ⟨hiter2, ?_⟩
    intro p
    rw [hiter1]
    have hjlt : reverseBits (t + 1) (m + 1) < 2 ^ (t + 1) := reverseBits_lt _ _
    have hinv : reverseBits (t + 1) (reverseBits (t + 1) (m + 1)) = m + 1 :=
      reverseBits_involution (t + 1) (m + 1) hm
    have hrevp : ∀ q, q < 2 ^ (t + 1) → reverseBits (t + 1) q = m + 1 →
        q = reverseBits (t + 1) (m + 1) := by
      intro q hq h
      have h2 := reverseBits_involution (t + 1) q hq
      rw [h] at h2
      omega
    by_cases hij : m + 1 < reverseBits (t + 1) (m + 1)
    · rw [if_pos hij]
      by_cases hpj : p = reverseBits (t + 1) (m + 1)
      · subst hpj
        rw [upd_same]
        rw [hfst (m + 1), if_neg (by rintro ⟨-, h | h⟩ <;> omega)]
        rw [if_pos ⟨hjlt, Or.inr hinv.le⟩, hinv]
      · by_cases hpi : p = m + 1
        · subst hpi
          rw [upd_other _ _ _ _ hpj, upd_same]
          rw [hfst (reverseBits (t + 1) (m + 1)),
            if_neg (by rintro ⟨-, h | h⟩ <;> omega)]
          rw [if_pos ⟨hm, Or.inl (le_refl _)⟩]
        · rw [upd_other _ _ _ _ hpj, upd_other _ _ _ _ hpi, hfst p]
          by_cases hpN : p < 2 ^ (t + 1)
          · have hne : ¬ reverseBits (t + 1) p = m + 1 := fun h => hpj (hrevp p hpN h)
            by_cases hc : p ≤ m ∨ reverseBits (t + 1) p ≤ m
            · rw [if_pos ⟨hpN, hc⟩, if_pos ⟨hpN, by omega⟩]
            · push_neg at hc
              have hc1 : ¬ (p < 2 ^ (t + 1) ∧ (p ≤ m ∨ reverseBits (t + 1) p ≤ m)) := by
                rintro ⟨-, h⟩
                omega
              have hc2 : ¬ (p < 2 ^ (t + 1) ∧
                  (p ≤ m + 1 ∨ reverseBits (t + 1) p ≤ m + 1)) := by
                rintro ⟨-, h | h⟩
                · exact hpi (by omega)
                · exact hne (by omega)
              rw [if_neg hc1, if_neg hc2]
          · rw [if_neg (by rintro ⟨h, -⟩; omega), if_neg (by rintro ⟨h, -⟩; omega)]
    · rw [if_neg hij, hfst p]
      by_cases hpN : p < 2 ^ (t + 1)
      · by_cases hc : p ≤ m ∨ reverseBits (t + 1) p ≤ m
        · rw [if_pos ⟨hpN, hc⟩, if_pos ⟨hpN, by omega⟩]
        · push_neg at hc
          have hc1 : ¬ (p < 2 ^ (t + 1) ∧ (p ≤ m ∨ reverseBits (t + 1) p ≤ m)) := by
            rintro ⟨-, h⟩
            omega
          rw [if_neg hc1]
          by_cases hc2 : p ≤ m + 1 ∨ reverseBits (t + 1) p ≤ m + 1
          · have hpeq : reverseBits (t + 1) p = p := by
              rcases hc2 with h | h
              · have hp1 : p = m + 1 := by omega
                subst hp1
                omega
              · have h1 : reverseBits (t + 1) p = m + 1 := by omega
                have h2 := hrevp p hpN h1
                omega
            rw [if_pos ⟨hpN, hc2⟩, hpeq]
          · rw [if_neg (by rintro ⟨-, h⟩; exact hc2 h)]
      · rw [if_neg (by rintro ⟨h, -⟩; omega), if_neg (by rintro ⟨h, -⟩; omega)]

lemma bitrevPass_spec (s : ℕ) (X : ℕ → ℂ) (p : ℕ) (hp : p < 2 ^ s) :
    bitrevPass (2 ^ s) X p = X (reverseBits s p) := by
  unfold bitrevPass
  have h1 : 0 < 2 ^ s := Nat.pos_pow_of_pos s (by norm_num)
  obtain ⟨-, hfst⟩ := bitrevLoop_invariant s X (2 ^ s - 1) (by omega)
  rw [hfst p, if_pos ⟨hp, Or.inl (by omega)⟩]


/-! ## Correctness of the butterfly stages -/

lemma blockLoop_invariant (wl : ℂ) (i half c : ℕ) (X : ℕ → ℂ) (hc : c ≤ half) :
    ((List.range c).foldl (butterflyStep i half wl) (X, 1)).2 = wl ^ c ∧
    ∀ p, ((List.range c).foldl (butterflyStep i half wl) (X, 1)).1 p
        = if i ≤ p ∧ p < i + c then X p + wl ^ (p - i) * X (p + half)
          else if i + half ≤ p ∧ p < i + half + c then
            X (p - half) - wl ^ (p - i - half) * X p
          else X p := by
  induction c with
  | zero =>
    refine ⟨by simp, ?_⟩
    intro p
    simp only [List.range_zero, List.foldl_nil]
    rw [if_neg (by omega), if_neg (by omega)]
  | succ c ih =>
    obtain ⟨hsnd, hfst⟩ := ih (by omega)
    have hhalf : 0 < half := by omega
    rw [List.range_succ, List.foldl_append]
    simp only [List.foldl_cons, List.foldl_nil]
    set st := (List.range c).foldl (butterflyStep i half wl) (X, 1) with hst
    have hu : st.1 (i + c) = X (i + c) := by
      rw [hfst (i + c), if_neg (by omega), if_neg (by omega)]
    have hv : st.1 (i + c + half) = X (i + c + half) := by
      rw [hfst (i + c + half), if_neg (by omega), if_neg (by omega)]
    have hiter1 : (butterflyStep i half wl st c).1
        = upd (upd st.1 (i + c) (X (i + c) + wl ^ c * X (i + c + half)))
            (i + c + half) (X (i + c) - wl ^ c * X (i + c + half)) := by
      simp only [butterflyStep, hu, hv, hsnd]
    have hiter2 : (butterflyStep i half wl st c).2 = wl ^ (c + 1) := by
      simp only [butterflyStep, hsnd, pow_succ]
    refine ⟨hiter2, ?_⟩
    intro p
    rw [hiter1]
    by_cases hp2 : p = i + c + half
    · subst hp2
      rw [upd_same]
      rw [if_neg (by omega), if_pos (by omega)]
      have e1 : i + c + half - half = i + c := by omega
      have e2 : i + c + half - i - half = c := by omega
      rw [e1, e2]
    · by_cases hp1 : p = i + c
      · subst hp1
        rw [upd_other _ _ _ _ hp2, upd_same]
        rw [if_pos (by omega)]
        have e1 : i + c - i = c := by omega
        rw [e1]
      · rw [upd_other _ _ _ _ hp2, upd_other _ _ _ _ hp1, hfst p]
        by_cases hc1 : i ≤ p ∧ p < i + c
        · rw [if_pos hc1, if_pos (by omega)]
        · rw [if_neg hc1]
          by_cases hc2 : i + half ≤ p ∧ p < i + half + c
          · rw [if_pos hc2, if_neg (by omega), if_pos (by omega)]
          · rw [if_neg hc2, if_neg (by omega), if_neg (by omega)]

lemma blockPass_spec (wl : ℂ) (half : ℕ) (X : ℕ → ℂ) (i p : ℕ) :
    blockPass wl half X i p
        = if i ≤ p ∧ p < i + half then X p + wl ^ (p - i) * X (p + half)
          else if i + half ≤ p ∧ p < i + half + half then
            X (p - half) - wl ^ (p - i - half) * X p
          else X p :=
  (blockLoop_invariant wl i half half X le_rfl).2 p

lemma stageFold_invariant (wl : ℂ) (half B : ℕ) (X : ℕ → ℂ) (hhalf : 0 < half) :
    ∀ p, ((List.range' 0 B (2 * half)).foldl (blockPass wl half) X) p
      = if p < 2 * half * B then
          (if p % (2 * half) < half then X p + wl ^ (p % (2 * half)) * X (p + half)
           else X (p - half) - wl ^ (p % (2 * half) - half) * X p)
        else X p := by
  induction B with
  | zero =>
    intro p
    simp only [List.range', List.foldl]
    rw [if_neg (by omega)]
  | succ B ih =>
    intro p
    have hconcat : List.range' 0 (B + 1) (2 * half)
        = List.range' 0 B (2 * half) ++ [2 * half * B] := by
      have h := @List.range'_concat (2 * half) 0 B
      simpa using h
    rw [hconcat, List.foldl_append]
    simp only [List.foldl_cons, List.foldl_nil]
    set Y := (List.range' 0 B (2 * half)).foldl (blockPass wl half) X with hY
    rw [blockPass_spec wl half Y (2 * half * B) p]
    set L := 2 * half * B with hL
    have hmul : 2 * half * (B + 1) = L + 2 * half := by rw [hL]; ring
    clear_value L
    have hmod : L ≤ p → p < L + 2 * half → p % (2 * half) = p - L := by
      intro h1 h2
      have hdec : p = (p - L) + 2 * half * B := by omega
      conv_lhs => rw [hdec]
      rw [Nat.add_mul_mod_self_left]
      exact Nat.mod_eq_of_lt (by omega)
    by_cases hc1 : L ≤ p ∧ p < L + half
    · rw [if_pos hc1]
      have hY1 : Y p = X p := by rw [ih p, if_neg (by omega)]
      have hY2 : Y (p + half) = X (p + half) := by rw [ih (p + half), if_neg (by omega)]
      rw [hY1, hY2, if_pos (by omega), if_pos (by rw [hmod (by omega) (by omega)]; omega),
        hmod (by omega) (by omega)]
    · rw [if_neg hc1]
      by_cases hc2 : L + half ≤ p ∧ p < L + half + half
      · rw [if_pos hc2]
        have hY1 : Y (p - half) = X (p - half) := by
          rw [ih (p - half), if_neg (by omega)]
        have hY2 : Y p = X p := by rw [ih p, if_neg (by omega)]
        rw [hY1, hY2, if_pos (by omega), if_neg (by rw [hmod (by omega) (by omega)]; omega),
          hmod (by omega) (by omega)]
      · rw [if_neg hc2, ih p]
        by_cases hp : p < L
        · rw [if_pos hp, if_pos (show p < 2 * half * (B + 1) by omega)]
        · rw [if_neg hp, if_neg (show ¬ p < 2 * half * (B + 1) by omega)]

/-! ## Twiddle factors and the per-stage invariant -/


def twid (c n : ℕ) : ℂ := Complex.exp (-(2 * Real.pi * Complex.I * c) / n)


lemma twid_zero (n : ℕ) : twid 0 n = 1 := by
  simp [twid]

lemma wlen_pow (n j : ℕ) : wlen n ^ j = twid j n := by
  rw [wlen, twid, ← Complex.exp_nat_mul]
  congr 1
  ring

lemma twid_double (c n : ℕ) : twid (2 * c) (2 * n) = twid c n := by
  rcases Nat.eq_zero_or_pos n with h | h
  · subst h
    simp [twid]
  · rw [twid, twid]
    congr 1
    have hn : (n : ℂ) ≠ 0 := Nat.cast_ne_zero.mpr (by omega)
    push_cast
    field_simp
    ring

lemma twid_add (c d n : ℕ) : twid (c + d) n = twid c n * twid d n := by
  rw [twid, twid, twid, ← Complex.exp_add]
  congr 1
  push_cast
  ring

lemma twid_mul_base (m n : ℕ) (hn : 0 < n) : twid (m * n) n = 1 := by
  rw [twid]
  have hn' : (n : ℂ) ≠ 0 := Nat.cast_ne_zero.mpr (by omega)
  have hang : -(2 * (Real.pi : ℂ) * Complex.I * (↑(m * n))) / ↑n
      = (m : ℂ) * -(2 * Real.pi * Complex.I) := by
    push_cast
    field_simp
    ring
  rw [hang, Complex.exp_nat_mul, Complex.exp_neg, Complex.exp_two_pi_mul_I]
  simp

lemma twid_half (n : ℕ) (hn : 0 < n) : twid n (2 * n) = -1 := by
  rw [twid]
  have hn' : (n : ℂ) ≠ 0 := Nat.cast_ne_zero.mpr (by omega)
  have : -(2 * (Real.pi : ℂ) * Complex.I * n) / ↑(2 * n)
      = -(Real.pi * Complex.I) := by
    push_cast
    field_simp
    ring
  rw [this, Complex.exp_neg, Complex.exp_pi_mul_I]
  norm_num

lemma sum_range_even_odd (f : ℕ → ℂ) (n : ℕ) :
    ∑ m ∈ Finset.range (2 * n), f m
      = ∑ m ∈ Finset.range n, f (2 * m) + ∑ m ∈ Finset.range n, f (2 * m + 1) := by
  induction n with
  | zero => simp
  | succ n ih =>
    have h2 : 2 * (n + 1) = 2 * n + 1 + 1 := by ring
    rw [h2, Finset.sum_range_succ, Finset.sum_range_succ,
      Finset.sum_range_succ (fun m => f (2 * m)), Finset.sum_range_succ (fun m => f (2 * m + 1)), ih]
    ring


lemma reverseBits_two_mul (u b : ℕ) : reverseBits (u + 1) (2 * b) = reverseBits u b := by
  show (2 * b) % 2 * 2 ^ u + reverseBits u ((2 * b) / 2) = _
  rw [Nat.mul_mod_right, show (2 * b) / 2 = b by omega]
  ring

lemma reverseBits_two_mul_add_one (u b : ℕ) :
    reverseBits (u + 1) (2 * b + 1) = 2 ^ u + reverseBits u b := by
  show (2 * b + 1) % 2 * 2 ^ u + reverseBits u ((2 * b + 1) / 2) = _
  rw [show (2 * b + 1) % 2 = 1 by omega, show (2 * b + 1) / 2 = b by omega]
  ring

/-- The invariant carried through the butterfly stages: with `2 ^ t` the
current block size, each block `b` of the working array holds the
`2 ^ t`-point DFT of the stride-`2 ^ u` subsequence of the (bit-reversally
selected) input starting at `reverseBits u b`. -/
def stageInv (t u : ℕ) (x Y : ℕ → ℂ) : Prop :=
  ∀ b r, b < 2 ^ u → r < 2 ^ t →
    Y (b * 2 ^ t + r) = ∑ m ∈ Finset.range (2 ^ t),
      x (m * 2 ^ u + reverseBits u b) * twid (m * r) (2 ^ t)

lemma stagePass_stageInv (t u : ℕ) (x Y : ℕ → ℂ) (h : stageInv t (u + 1) x Y) :
    stageInv (t + 1) u x (stagePass (2 ^ (t + 1 + u)) (2 ^ (t + 1)) Y) := by
  intro b r' hb hr'
  have ht0 : 0 < 2 ^ t := Nat.pos_pow_of_pos t (by norm_num)
  have hu0 : 0 < 2 ^ u := Nat.pos_pow_of_pos u (by norm_num)
  have hl2 : 2 ^ (t + 1) = 2 * 2 ^ t := by rw [pow_succ]; ring
  have hu2 : 2 ^ (u + 1) = 2 * 2 ^ u := by rw [pow_succ]; ring
  have hldiv : 2 ^ (t + 1) / 2 = 2 ^ t := by omega
  have hN : 2 ^ (t + 1 + u) = 2 * 2 ^ t * 2 ^ u := by rw [pow_add, hl2]
  have hnum : (2 ^ (t + 1 + u) + 2 ^ (t + 1) - 1) / 2 ^ (t + 1) = 2 ^ u := by
    rw [hN, hl2]
    have hpos : 0 < 2 * 2 ^ t := by omega
    have hre : 2 * 2 ^ t * 2 ^ u + 2 * 2 ^ t - 1
        = (2 * 2 ^ t - 1) + (2 * 2 ^ t) * 2 ^ u := by
      have : 0 < 2 * 2 ^ t * 2 ^ u := by positivity
      omega
    rw [hre, Nat.add_mul_div_left _ _ hpos, Nat.div_eq_of_lt (by omega)]
    omega
  have hsf := stageFold_invariant (wlen (2 ^ (t + 1))) (2 ^ t) (2 ^ u) Y ht0
  have hstage : stagePass (2 ^ (t + 1 + u)) (2 ^ (t + 1)) Y
      = (List.range' 0 (2 ^ u) (2 * 2 ^ t)).foldl
          (blockPass (wlen (2 ^ (t + 1))) (2 ^ t)) Y := by
    rw [stagePass, hnum, hldiv, hl2]
  rw [hstage]
  set p := b * 2 ^ (t + 1) + r' with hp
  have hsucc : (b + 1) * 2 ^ (t + 1) = b * 2 ^ (t + 1) + 2 ^ (t + 1) := by ring
  have hmulle : (b + 1) * 2 ^ (t + 1) ≤ 2 ^ u * 2 ^ (t + 1) :=
    Nat.mul_le_mul_right _ hb
  have hNle : 2 ^ u * 2 ^ (t + 1) = 2 * 2 ^ t * 2 ^ u := by rw [hl2]; ring
  have hpN : p < 2 * 2 ^ t * 2 ^ u := by omega
  have hpmod : p % (2 * 2 ^ t) = r' := by
    have hdec : p = r' + (2 * 2 ^ t) * b := by rw [hp, hl2]; ring
    rw [hdec, Nat.add_mul_mod_self_left, Nat.mod_eq_of_lt (by omega)]
  rw [hsf p, if_pos hpN, hpmod]
  by_cases hcase : r' < 2 ^ t
  · rw [if_pos hcase]
    have hq1 : p = (2 * b) * 2 ^ t + r' := by rw [hp, hl2]; ring
    have hq2 : p + 2 ^ t = (2 * b + 1) * 2 ^ t + r' := by rw [hp, hl2]; ring
    have hY1 : Y p = ∑ m ∈ Finset.range (2 ^ t),
        x (m * 2 ^ (u + 1) + reverseBits (u + 1) (2 * b)) * twid (m * r') (2 ^ t) := by
      rw [hq1]
      exact h (2 * b) r' (by omega) hcase
    have hY2 : Y (p + 2 ^ t) = ∑ m ∈ Finset.range (2 ^ t),
        x (m * 2 ^ (u + 1) + reverseBits (u + 1) (2 * b + 1)) * twid (m * r') (2 ^ t) := by
      rw [hq2]
      exact h (2 * b + 1) r' (by omega) hcase
    have hsum : ∑ m ∈ Finset.range (2 ^ (t + 1)),
          x (m * 2 ^ u + reverseBits u b) * twid (m * r') (2 ^ (t + 1))
        = (∑ m ∈ Finset.range (2 ^ t),
            x (m * 2 ^ (u + 1) + reverseBits (u + 1) (2 * b)) * twid (m * r') (2 ^ t))
          + twid r' (2 ^ (t + 1)) * ∑ m ∈ Finset.range (2 ^ t),
            x (m * 2 ^ (u + 1) + reverseBits (u + 1) (2 * b + 1)) * twid (m * r') (2 ^ t) := by
      rw [hl2, sum_range_even_odd, Finset.mul_sum]
      congr 1
      · refine Finset.sum_congr rfl (fun m _ => ?_)
        rw [reverseBits_two_mul, show m * 2 ^ (u + 1) = 2 * m * 2 ^ u by rw [hu2]; ring,
          show 2 * m * r' = 2 * (m * r') by ring, twid_double]
      · refine Finset.sum_congr rfl (fun m _ => ?_)
        rw [reverseBits_two_mul_add_one,
          show m * 2 ^ (u + 1) + (2 ^ u + reverseBits u b)
              = (2 * m + 1) * 2 ^ u + reverseBits u b by rw [hu2]; ring,
          show (2 * m + 1) * r' = 2 * (m * r') + r' by ring, twid_add,
          twid_double]
        ring
    rw [hY1, hY2, wlen_pow, hsum]
  · rw [if_neg hcase]
    obtain ⟨r, rfl⟩ : ∃ r, r' = r + 2 ^ t := ⟨r' - 2 ^ t, by omega⟩
    have hrlt : r < 2 ^ t := by omega
    have hrsub : r + 2 ^ t - 2 ^ t = r := by omega
    have hq1 : p - 2 ^ t = (2 * b) * 2 ^ t + r := by
      have : p = (2 * b) * 2 ^ t + r + 2 ^ t := by rw [hp, hl2]; ring
      omega
    have hq2 : p = (2 * b + 1) * 2 ^ t + r := by rw [hp, hl2]; ring
    have hY1 : Y (p - 2 ^ t) = ∑ m ∈ Finset.range (2 ^ t),
        x (m * 2 ^ (u + 1) + reverseBits (u + 1) (2 * b)) * twid (m * r) (2 ^ t) := by
      rw [hq1]
      exact h (2 * b) r (by omega) hrlt
    have hY2 : Y p = ∑ m ∈ Finset.range (2 ^ t),
        x (m * 2 ^ (u + 1) + reverseBits (u + 1) (2 * b + 1)) * twid (m * r) (2 ^ t) := by
      rw [hq2]
      exact h (2 * b + 1) r (by omega) hrlt
    have hsum : ∑ m ∈ Finset.range (2 ^ (t + 1)),
          x (m * 2 ^ u + reverseBits u b) * twid (m * (r + 2 ^ t)) (2 ^ (t + 1))
        = (∑ m ∈ Finset.range (2 ^ t),
            x (m * 2 ^ (u + 1) + reverseBits (u + 1) (2 * b)) * twid (m * r) (2 ^ t))
          - twid r (2 ^ (t + 1)) * ∑ m ∈ Finset.range (2 ^ t),
            x (m * 2 ^ (u + 1) + reverseBits (u + 1) (2 * b + 1)) * twid (m * r) (2 ^ t) := by
      rw [hl2, sum_range_even_odd, Finset.mul_sum]
      have heven : ∀ m, x (2 * m * 2 ^ u + reverseBits u b)
            * twid (2 * m * (r + 2 ^ t)) (2 * 2 ^ t)
          = x (m * 2 ^ (u + 1) + reverseBits (u + 1) (2 * b)) * twid (m * r) (2 ^ t) := by
        intro m
        rw [reverseBits_two_mul, show m * 2 ^ (u + 1) = 2 * m * 2 ^ u by rw [hu2]; ring,
          show 2 * m * (r + 2 ^ t) = 2 * (m * (r + 2 ^ t)) by ring, twid_double,
          show m * (r + 2 ^ t) = m * r + m * 2 ^ t by ring, twid_add,
          twid_mul_base m (2 ^ t) ht0, mul_one]
      have hodd : ∀ m, x ((2 * m + 1) * 2 ^ u + reverseBits u b)
            * twid ((2 * m + 1) * (r + 2 ^ t)) (2 * 2 ^ t)
          = -(twid r (2 * 2 ^ t)
              * (x (m * 2 ^ (u + 1) + reverseBits (u + 1) (2 * b + 1))
                 * twid (m * r) (2 ^ t))) := by
        intro m
        rw [reverseBits_two_mul_add_one,
          show m * 2 ^ (u + 1) + (2 ^ u + reverseBits u b)
              = (2 * m + 1) * 2 ^ u + reverseBits u b by rw [hu2]; ring,
          show (2 * m + 1) * (r + 2 ^ t) = 2 * (m * (r + 2 ^ t)) + (r + 2 ^ t) by ring,
          twid_add, twid_double, show m * (r + 2 ^ t) = m * r + m * 2 ^ t by ring,
          twid_add, twid_mul_base m (2 ^ t) ht0, mul_one, twid_add,
          twid_half (2 ^ t) ht0]
        ring
      rw [Finset.sum_congr rfl (fun m _ => heven m),
        Finset.sum_congr rfl (fun m _ => hodd m)]
      rw [Finset.sum_neg_distrib, ← sub_eq_add_neg]
    rw [hY1, hY2, wlen_pow, hrsub, hsum]


/-! ## The iterative FFT computes the DFT -/

lemma stagesLoop_step (N length : ℕ) (X : ℕ → ℂ) (h1 : 0 < length)
    (h2 : length ≤ N) :
    stagesLoop N length X = stagesLoop N (2 * length) (stagePass N length X) := by
  rw [stagesLoop, if_pos ⟨h1, h2⟩]

lemma stagesLoop_exit (N length : ℕ) (X : ℕ → ℂ)
    (h : ¬ (0 < length ∧ length ≤ N)) : stagesLoop N length X = X := by
  rw [stagesLoop, if_neg h]

lemma stagesLoop_spec (u : ℕ) : ∀ t (x Y : ℕ → ℂ), stageInv t u x Y →
    stageInv (t + u) 0 x (stagesLoop (2 ^ (t + u)) (2 ^ (t + 1)) Y) := by
  induction u with
  | zero =>
    intro t x Y h
    rw [Nat.add_zero]
    have ht0 : 0 < 2 ^ t := Nat.pos_pow_of_pos t (by norm_num)
    have hlt : 2 ^ t < 2 ^ (t + 1) := by rw [pow_succ]; omega
    rw [stagesLoop_exit _ _ _ (by omega)]
    exact h
  | succ u ih =>
    intro t x Y h
    have hstep := stagePass_stageInv t u x Y h
    have h1 : 0 < 2 ^ (t + 1) := Nat.pos_pow_of_pos _ (by norm_num)
    rw [show t + (u + 1) = t + 1 + u from by omega]
    have h2 : 2 ^ (t + 1) ≤ 2 ^ (t + 1 + u) := Nat.pow_le_pow_right (by norm_num) (by omega)
    rw [stagesLoop_step _ _ _ h1 h2,
      show 2 * 2 ^ (t + 1) = 2 ^ (t + 1 + 1) from by rw [pow_succ]; ring]
    exact ih (t + 1) x (stagePass (2 ^ (t + 1 + u)) (2 ^ (t + 1)) Y) hstep

lemma _fft_fast_impl_length (x : List ℂ) :
    (_fft_fast_impl x).length = x.length := by
  unfold _fft_fast_impl
  simp

lemma dft_length (x : List ℂ) : (dft x).length = x.length := by
  unfold dft
  simp

lemma fftImpl_eq_dft (x : List ℂ) (s : ℕ) (hs : x.length = 2 ^ s) :
    _fft_fast_impl x = dft x := by
  have hinit : stageInv 0 s (fun i => x.getD i 0)
      (bitrevPass x.length (fun i => x.getD i 0)) := by
    intro b r hb hr
    rw [pow_zero] at hr
    have hr0 : r = 0 := by omega
    subst hr0
    rw [show b * 2 ^ 0 + 0 = b from by ring, hs,
      bitrevPass_spec s (fun i => x.getD i 0) b hb]
    simp [twid_zero]
  have hmain := stagesLoop_spec s 0 (fun i => x.getD i 0) _ hinit
  rw [Nat.zero_add] at hmain
  rw [show (2 : ℕ) ^ (0 + 1) = 2 from by norm_num, hs] at hmain
  unfold _fft_fast_impl dft
  rw [hs]
  refine List.map_congr_left ?_
  intro k hk
  rw [List.mem_range] at hk
  have hpow : 0 < 2 ^ s := Nat.pos_pow_of_pos s (by norm_num)
  have hkv := hmain 0 k (by rw [pow_zero]; omega) (by omega)
  rw [show (0 : ℕ) * 2 ^ s + k = k from by ring] at hkv
  rw [hkv]
  refine Finset.sum_congr rfl (fun n hn => ?_)
  have hidx : n * 2 ^ 0 + reverseBits 0 0 = n := by simp [reverseBits]
  rw [hidx]
  show x.getD n 0 * twid (n * k) (2 ^ s)
      = x.getD n 0 * Complex.exp (-(2 * Real.pi * Complex.I * n * k) / ((2 ^ s : ℕ) : ℂ))
  congr 1
  rw [twid]
  congr 1
  push_cast
  ring


/-! ## Inversion: the conjugation trick undoes the forward transform -/

lemma getD_map_conj (l : List ℂ) (k : ℕ) (h : k < l.length) :
    (l.map (starRingEnd ℂ)).getD k 0 = (starRingEnd ℂ) (l.getD k 0) := by
  rw [List.getD_eq_getElem _ _ (by simpa using h), List.getElem_map,
    List.getD_eq_getElem _ _ h]

lemma conj_twid (c n : ℕ) :
    (starRingEnd ℂ) (twid c n) = Complex.exp ((2 * Real.pi * Complex.I * c) / n) := by
  rw [twid, ← Complex.exp_conj]
  congr 1
  simp only [map_div₀, map_neg, map_mul, Complex.conj_I, Complex.conj_ofReal,
    map_ofNat, Complex.conj_natCast]
  ring

lemma twid_mul_conj (N j n k : ℕ) :
    twid (j * k) N * (starRingEnd ℂ) (twid (n * k) N)
      = Complex.exp ((2 * Real.pi * Complex.I * (((n : ℤ) - (j : ℤ)) : ℂ)) / N) ^ k := by
  rw [conj_twid, twid, ← Complex.exp_add, ← Complex.exp_nat_mul]
  congr 1
  push_cast
  ring

lemma twid_orthogonal (N j n : ℕ) (hN : 0 < N) (hj : j < N) (hn : n < N) :
    ∑ k ∈ Finset.range N, twid (j * k) N * (starRingEnd ℂ) (twid (n * k) N)
      = if j = n then (N : ℂ) else 0 := by
  have hNC : ((N : ℕ) : ℂ) ≠ 0 := Nat.cast_ne_zero.mpr (by omega)
  rw [Finset.sum_congr rfl (fun k _ => twid_mul_conj N j n k)]
  by_cases hjn : j = n
  · subst hjn
    rw [if_pos rfl]
    have hz : Complex.exp ((2 * Real.pi * Complex.I * (((j : ℤ) - (j : ℤ)) : ℂ)) / N) = 1 := by
      rw [show (((j : ℤ) - (j : ℤ)) : ℂ) = 0 by push_cast; ring]
      simp
    rw [Finset.sum_congr rfl (fun k _ => by rw [hz, one_pow])]
    simp
  · rw [if_neg hjn]
    set z := Complex.exp ((2 * Real.pi * Complex.I * (((n : ℤ) - (j : ℤ)) : ℂ)) / N) with hzdef
    have hzN : z ^ N = 1 := by
      rw [hzdef, ← Complex.exp_nat_mul,
        show (N : ℂ) * (2 * Real.pi * Complex.I * (((n : ℤ) - (j : ℤ)) : ℂ) / N)
            = (((n : ℤ) - (j : ℤ)) : ℂ) * (2 * Real.pi * Complex.I) from by
          field_simp
          ring]
      exact_mod_cast Complex.exp_int_mul_two_pi_mul_I ((n : ℤ) - (j : ℤ))
    have hz1 : z ≠ 1 := by
      rw [hzdef]
      intro hcon
      obtain ⟨m, hm⟩ := Complex.exp_eq_one_iff.mp hcon
      have hPI : (2 * Real.pi * Complex.I : ℂ) ≠ 0 := by
        simp [Complex.ext_iff, Real.pi_ne_zero]
      field_simp at hm
      have h2 : (2 * Real.pi * Complex.I : ℂ) * ((n : ℂ) - (j : ℂ))
          = (2 * Real.pi * Complex.I : ℂ) * ((m : ℂ) * (N : ℂ)) := by
        linear_combination hm
      have hmain : ((n : ℂ) - (j : ℂ)) = (m : ℂ) * (N : ℂ) :=
        mul_left_cancel₀ hPI h2
      have hint : (n : ℤ) - (j : ℤ) = m * (N : ℤ) := by
        exact_mod_cast hmain
      rcases lt_trichotomy m 0 with hm0 | hm0 | hm0
      · have h1 : m ≤ -1 := by omega
        have h2 : m * (N : ℤ) ≤ -1 * (N : ℤ) :=
          mul_le_mul_of_nonneg_right h1 (by omega)
        omega
      · subst hm0
        simp at hint
        omega
      · have h1 : (1 : ℤ) ≤ m := by omega
        have h2 : 1 * (N : ℤ) ≤ m * (N : ℤ) :=
          mul_le_mul_of_nonneg_right h1 (by omega)
        omega
    rw [geom_sum_eq hz1, hzN]
    simp

lemma dft_getD (x : List ℂ) (k : ℕ) (hk : k < x.length) :
    (dft x).getD k 0 = ∑ n ∈ Finset.range x.length,
      x.getD n 0 * twid (n * k) x.length := by
  unfold dft
  rw [List.getD_eq_getElem _ _ (by simpa using hk), List.getElem_map,
    List.getElem_range]
  refine Finset.sum_congr rfl (fun n hn => ?_)
  congr 1
  rw [twid]
  congr 1
  push_cast
  ring

lemma ifft_fft_impl (x : List ℂ) (s : ℕ) (hs : x.length = 2 ^ s) :
    _ifft_fast_impl (_fft_fast_impl x) = x := by
  have hN0 : 0 < x.length := by
    rw [hs]
    positivity
  have hNC : ((x.length : ℕ) : ℂ) ≠ 0 := Nat.cast_ne_zero.mpr (by omega)
  rw [fftImpl_eq_dft x s hs]
  unfold _ifft_fast_impl
  have hlen1 : ((dft x).map (starRingEnd ℂ)).length = 2 ^ s := by
    rw [List.length_map, dft_length, hs]
  rw [fftImpl_eq_dft _ s hlen1]
  have hlenY : ((dft x).map (starRingEnd ℂ)).length = x.length := by
    rw [hlen1, hs]
  apply List.ext_getElem
  · rw [List.length_map, dft_length, hlenY]
  · intro n h1 h2
    rw [List.getElem_map]
    have hn : n < x.length := h2
    set Y := (dft x).map (starRingEnd ℂ) with hY
    have hdY : n < (dft Y).length := by
      rw [dft_length, hlenY]
      exact hn
    rw [← List.getD_eq_getElem (dft Y) 0 hdY,
      dft_getD Y n (by rw [hlenY]; exact hn), hlenY]
    have hYk : ∀ k, k < x.length →
        Y.getD k 0 = (starRingEnd ℂ) ((dft x).getD k 0) := by
      intro k hk
      rw [hY, getD_map_conj _ _ (by rw [dft_length]; exact hk)]
    have hstep1 : ∑ k ∈ Finset.range x.length, Y.getD k 0 * twid (k * n) x.length
        = ∑ k ∈ Finset.range x.length,
            (starRingEnd ℂ) ((dft x).getD k 0) * twid (k * n) x.length := by
      refine Finset.sum_congr rfl (fun k hk => ?_)
      rw [hYk k (Finset.mem_range.mp hk)]
    rw [hstep1]
    rw [map_sum]
    have hstep2 : ∀ k ∈ Finset.range x.length,
        (starRingEnd ℂ) ((starRingEnd ℂ) ((dft x).getD k 0) * twid (k * n) x.length)
          = (∑ j ∈ Finset.range x.length,
              x.getD j 0 * (twid (j * k) x.length
                * (starRingEnd ℂ) (twid (n * k) x.length))) := by
      intro k hk
      rw [Finset.mem_range] at hk
      rw [map_mul, Complex.conj_conj, dft_getD x k hk, Finset.sum_mul]
      refine Finset.sum_congr rfl (fun j hj => ?_)
      rw [show n * k = k * n from by ring]
      ring
    rw [Finset.sum_congr rfl hstep2, Finset.sum_comm]
    have hstep3 : ∀ j ∈ Finset.range x.length,
        ∑ k ∈ Finset.range x.length,
            x.getD j 0 * (twid (j * k) x.length
              * (starRingEnd ℂ) (twid (n * k) x.length))
          = if j = n then x.getD j 0 * (x.length : ℂ) else 0 := by
      intro j hj
      rw [Finset.mem_range] at hj
      rw [← Finset.mul_sum, twid_orthogonal x.length j n hN0 hj hn]
      by_cases hjn : j = n
      · rw [if_pos hjn, if_pos hjn]
      · rw [if_neg hjn, if_neg hjn, mul_zero]
    rw [Finset.sum_congr rfl hstep3, Finset.sum_ite_eq', if_pos (by
      rw [Finset.mem_range]
      exact hn)]
    rw [List.getD_eq_getElem _ _ hn, dft_length, mul_div_assoc, div_self hNC,
      mul_one]


/-! ## Public wrappers -/

lemma _is_power_of_two_iff (n : ℕ) :
    _is_power_of_two n = true ↔ ∃ k, n = 2 ^ k := by
  unfold _is_power_of_two
  rw [Bool.and_eq_true, decide_eq_true_iff, beq_iff_eq]
  exact pow_two_land n

lemma fft_fast_ok (x : List ℂ) (h : ∃ k, x.length = 2 ^ k) :
    fft_fast x = .ok (_fft_fast_impl x) := by
  unfold fft_fast
  rw [if_neg (not_not_intro ((_is_power_of_two_iff x.length).mpr h))]

lemma fft_fast_err (x : List ℂ) (h : ¬ ∃ k, x.length = 2 ^ k) :
    fft_fast x = .error "fft_fast requires input length to be a power of two" := by
  unfold fft_fast
  rw [if_pos (fun hb => h ((_is_power_of_two_iff x.length).mp hb))]

lemma ifft_fast_ok (X : List ℂ) (h : ∃ k, X.length = 2 ^ k) :
    ifft_fast X = .ok (_ifft_fast_impl X) := by
  unfold ifft_fast
  rw [if_neg (not_not_intro ((_is_power_of_two_iff X.length).mpr h))]

lemma ifft_fast_err (X : List ℂ) (h : ¬ ∃ k, X.length = 2 ^ k) :
    ifft_fast X = .error "ifft_fast requires input length to be a power of two" := by
  unfold ifft_fast
  rw [if_pos (fun hb => h ((_is_power_of_two_iff X.length).mp hb))]

lemma fft_roundtrip (x : List ℂ) (h : ∃ k, x.length = 2 ^ k) :
    (fft_fast x).bind ifft_fast = Except.ok x := by
  obtain ⟨k, hk⟩ := h
  rw [fft_fast_ok x ⟨k, hk⟩]
  show ifft_fast (_fft_fast_impl x) = Except.ok x
  rw [ifft_fast_ok _ ⟨k, by rw [_fft_fast_impl_length, hk]⟩,
    ifft_fft_impl x k hk]

/-! ## Concrete transform values -/

lemma exp_neg_pi_div_two : Complex.exp (-(Real.pi * Complex.I) / 2) = -Complex.I := by
  rw [show -((Real.pi : ℂ) * Complex.I) / 2 = ((-(Real.pi / 2) : ℝ) : ℂ) * Complex.I from by
      push_cast
      ring,
    Complex.exp_mul_I, ← Complex.ofReal_cos, ← Complex.ofReal_sin,
    Real.cos_neg, Real.sin_neg, Real.cos_pi_div_two, Real.sin_pi_div_two]
  push_cast
  ring

lemma twid_four (c : ℕ) : twid c 4 = (-Complex.I) ^ c := by
  rw [twid, show -(2 * Real.pi * Complex.I * (c : ℂ)) / ((4 : ℕ) : ℂ)
      = (c : ℂ) * (-(Real.pi * Complex.I) / 2) from by
    push_cast
    ring]
  rw [Complex.exp_nat_mul, exp_neg_pi_div_two]

lemma twid_two (c : ℕ) : twid c 2 = (-1) ^ c := by
  rw [twid, show -(2 * Real.pi * Complex.I * (c : ℂ)) / ((2 : ℕ) : ℂ)
      = (c : ℂ) * -(Real.pi * Complex.I) from by
    push_cast
    ring]
  rw [Complex.exp_nat_mul, Complex.exp_neg, Complex.exp_pi_mul_I]
  norm_num

lemma dft_eq_twid_form (x : List ℂ) :
    dft x = (List.range x.length).map (fun k =>
      ∑ n ∈ Finset.range x.length, x.getD n 0 * twid (n * k) x.length) := by
  unfold dft
  refine List.map_congr_left (fun k hk => ?_)
  refine Finset.sum_congr rfl (fun n hn => ?_)
  congr 1
  rw [twid]
  congr 1
  push_cast
  ring

lemma dft_ones : dft [1, 1, 1, 1] = [4, 0, 0, 0] := by
  rw [dft_eq_twid_form]
  rw [show ([1, 1, 1, 1] : List ℂ).length = 4 from rfl,
    show List.range 4 = [0, 1, 2, 3] from rfl]
  simp only [List.map_cons, List.map_nil, Finset.sum_range_succ,
    Finset.sum_range_zero, twid_four]
  norm_num [List.getD, pow_succ]

lemma dft_alt : dft [1, -1, 1, -1] = [0, 0, 4, 0] := by
  rw [dft_eq_twid_form]
  rw [show ([1, -1, 1, -1] : List ℂ).length = 4 from rfl,
    show List.range 4 = [0, 1, 2, 3] from rfl]
  simp only [List.map_cons, List.map_nil, Finset.sum_range_succ,
    Finset.sum_range_zero, twid_four]
  norm_num [List.getD, pow_succ]

lemma dft_pair : dft [1, 1] = [2, 0] := by
  rw [dft_eq_twid_form]
  rw [show ([1, 1] : List ℂ).length = 2 from rfl,
    show List.range 2 = [0, 1] from rfl]
  simp only [List.map_cons, List.map_nil, Finset.sum_range_succ,
    Finset.sum_range_zero, twid_two]
  norm_num [List.getD, pow_succ]

lemma ifft_pair : ifft_fast [1, 1] = .ok [1, 0] := by
  rw [ifft_fast_ok [1, 1] ⟨1, by norm_num⟩]
  unfold _ifft_fast_impl
  rw [show ([1, 1] : List ℂ).map (starRingEnd ℂ) = [1, 1] from by
    simp]
  rw [fftImpl_eq_dft [1, 1] 1 (by norm_num), dft_pair]
  simp only [List.map_cons, List.map_nil, map_ofNat, map_zero]
  norm_num


/-! ## Claim theorems: the Transform Core -/

lemma not_pow2_three : ¬ ∃ k, (3 : ℕ) = 2 ^ k := by
  rintro ⟨k, hk⟩
  rcases k with _ | _ | k
  · norm_num at hk
  · norm_num at hk
  · have h4 : 2 ^ (k + 2) = 4 * 2 ^ k := by ring
    have hp : 0 < 2 ^ k := Nat.pos_pow_of_pos k (by norm_num)
    omega

lemma not_pow2_five : ¬ ∃ k, (5 : ℕ) = 2 ^ k := by
  rintro ⟨k, hk⟩
  rcases k with _ | _ | _ | k
  · norm_num at hk
  · norm_num at hk
  · norm_num at hk
  · have h8 : 2 ^ (k + 3) = 8 * 2 ^ k := by ring
    have hp : 0 < 2 ^ k := Nat.pos_pow_of_pos k (by norm_num)
    omega

lemma not_pow2_six : ¬ ∃ k, (6 : ℕ) = 2 ^ k := by
  rintro ⟨k, hk⟩
  rcases k with _ | _ | _ | k
  · norm_num at hk
  · norm_num at hk
  · norm_num at hk
  · have h8 : 2 ^ (k + 3) = 8 * 2 ^ k := by ring
    have hp : 0 < 2 ^ k := Nat.pos_pow_of_pos k (by norm_num)
    omega

/-- C1: for every complex sequence whose length is a power of two, running
the inverse transform (`ifft_fast`) on the output of the forward transform
(`fft_fast`) returns the original sequence exactly (the exact-arithmetic
counterpart of the spec's 1e-6 tolerance), and in particular the concrete
input `[0, 1, 0, -1]` is reproduced by forward-then-inverse. -/
theorem C1_fft_ifft_roundtrip :
    (∀ x : List ℂ, (∃ k, x.length = 2 ^ k) →
      (fft_fast x).bind ifft_fast = Except.ok x) ∧
    (fft_fast [0, 1, 0, -1]).bind ifft_fast = Except.ok [0, 1, 0, -1] :=
  ⟨fun x h => fft_roundtrip x h,
   fft_roundtrip [0, 1, 0, -1] ⟨2, by norm_num⟩⟩

/-- Witness for C1 at the concrete power-of-two-length input
`[0, 0, 0, 0, 0, 0, 0, 1]` (length 8 = 2³). -/
theorem C1_fft_ifft_roundtrip_witness :
    (fft_fast [0, 0, 0, 0, 0, 0, 0, 1]).bind ifft_fast
      = Except.ok [0, 0, 0, 0, 0, 0, 0, 1] :=
  C1_fft_ifft_roundtrip.1 [0, 0, 0, 0, 0, 0, 0, 1] ⟨3, by norm_num⟩

/-- C3: for every complex sequence of power-of-two length, `fft_fast`
returns a sequence of the same length equal to the unnormalised discrete
Fourier transform `X[k] = Σ_n x[n]·exp(-2πi·n·k/N)` (no division by `N`);
in particular `fft_fast [1,1,1,1] = [4,0,0,0]` and
`fft_fast [1,-1,1,-1] = [0,0,4,0]` exactly. -/
theorem C3_fft_is_dft :
    (∀ x : List ℂ, (∃ k, x.length = 2 ^ k) →
      fft_fast x = Except.ok (dft x) ∧ (dft x).length = x.length) ∧
    fft_fast [1, 1, 1, 1] = Except.ok [4, 0, 0, 0] ∧
    fft_fast [1, -1, 1, -1] = Except.ok [0, 0, 4, 0] := by
  refine ⟨fun x h => ?_, ?_, ?_⟩
  · obtain ⟨k, hk⟩ := h
    exact ⟨by rw [fft_fast_ok x ⟨k, hk⟩, fftImpl_eq_dft x k hk], dft_length x⟩
  · rw [fft_fast_ok [1, 1, 1, 1] ⟨2, by norm_num⟩,
      fftImpl_eq_dft [1, 1, 1, 1] 2 (by norm_num), dft_ones]
  · rw [fft_fast_ok [1, -1, 1, -1] ⟨2, by norm_num⟩,
      fftImpl_eq_dft [1, -1, 1, -1] 2 (by norm_num), dft_alt]

/-- Witness for C3 at the concrete input `[2, 3]` (length 2 = 2¹). -/
theorem C3_fft_is_dft_witness :
    fft_fast [2, 3] = Except.ok (dft [2, 3])
      ∧ (dft [2, 3]).length = ([2, 3] : List ℂ).length :=
  C3_fft_is_dft.1 [2, 3] ⟨1, by norm_num⟩

/-- C4: `fft_fast` and `ifft_fast` fail — with the error message naming the
power-of-two requirement — exactly when the input length is not a power of
two; lengths 3, 5 and 6 fail while lengths 1, 2, 4 and 1024 succeed. -/
theorem C4_length_validation :
    (∀ x : List ℂ,
      ((¬ ∃ k, x.length = 2 ^ k) ↔
        fft_fast x = Except.error
          "fft_fast requires input length to be a power of two") ∧
      ((¬ ∃ k, x.length = 2 ^ k) ↔
        ifft_fast x = Except.error
          "ifft_fast requires input length to be a power of two")) ∧
    (∀ n, n = 3 ∨ n = 5 ∨ n = 6 →
      fft_fast (List.replicate n 0) = Except.error
          "fft_fast requires input length to be a power of two" ∧
      ifft_fast (List.replicate n 0) = Except.error
          "ifft_fast requires input length to be a power of two") ∧
    (∀ n, n = 1 ∨ n = 2 ∨ n = 4 ∨ n = 1024 → ∃ y z,
      fft_fast (List.replicate n 0) = Except.ok y ∧
      ifft_fast (List.replicate n 0) = Except.ok z) := by
  have hgen : ∀ x : List ℂ,
      ((¬ ∃ k, x.length = 2 ^ k) ↔
        fft_fast x = Except.error
          "fft_fast requires input length to be a power of two") ∧
      ((¬ ∃ k, x.length = 2 ^ k) ↔
        ifft_fast x = Except.error
          "ifft_fast requires input length to be a power of two") := by
    intro x
    constructor
    · constructor
      · exact fun h => fft_fast_err x h
      · intro he hex
        rw [fft_fast_ok x hex] at he
        exact Except.noConfusion he
    · constructor
      · exact fun h => ifft_fast_err x h
      · intro he hex
        rw [ifft_fast_ok x hex] at he
        exact Except.noConfusion he
  refine ⟨hgen, ?_, ?_⟩
  · intro n hn
    have hlen : (List.replicate n (0 : ℂ)).length = n := List.length_replicate n 0
    have hnp : ¬ ∃ k, (List.replicate n (0 : ℂ)).length = 2 ^ k := by
      rw [hlen]
      rcases hn with rfl | rfl | rfl
      · exact not_pow2_three
      · exact not_pow2_five
      · exact not_pow2_six
    exact ⟨(hgen _).1.mp hnp, (hgen _).2.mp hnp⟩
  · intro n hn
    have hlen : (List.replicate n (0 : ℂ)).length = n := List.length_replicate n 0
    have hp : ∃ k, (List.replicate n (0 : ℂ)).length = 2 ^ k := by
      rw [hlen]
      rcases hn with rfl | rfl | rfl | rfl
      · exact ⟨0, by norm_num⟩
      · exact ⟨1, by norm_num⟩
      · exact ⟨2, by norm_num⟩
      · exact ⟨10, by norm_num⟩
    exact ⟨_, _, fft_fast_ok _ hp, ifft_fast_ok _ hp⟩

/-- Witness for C4 at the concrete failing length 3 (`[0, 0, 0]`) and the
concrete succeeding length 1024. -/
theorem C4_length_validation_witness :
    fft_fast (List.replicate 3 0) = Except.error
        "fft_fast requires input length to be a power of two" ∧
    (∃ y z, fft_fast (List.replicate 1024 0) = Except.ok y ∧
      ifft_fast (List.replicate 1024 0) = Except.ok z) :=
  ⟨(C4_length_validation.2.1 3 (Or.inl rfl)).1,
   C4_length_validation.2.2 1024 (by norm_num)⟩


/-! ## Claim theorems: Window Function and parameter validation -/

lemma hann_window_ok (size : ℕ) (h : 1 < size) :
    hann_window size = Except.ok ((List.range size).map (fun i : ℕ =>
      0.5 * (1 - Real.cos ((2 * Real.pi * (i : ℝ)) / ((size : ℝ) - 1))))) := by
  unfold hann_window
  rw [if_neg (by omega)]

lemma hann_window_err (size : ℕ) (h : size ≤ 1) :
    hann_window size = Except.error "window_size must be greater than 1" := by
  unfold hann_window
  rw [if_pos h]

lemma validate_ok (w hp f : ℕ) (h1 : w ≤ f) (h2 : 0 < hp)
    (h3 : ∃ k, f = 2 ^ k) : _validate_fft_params w hp f = .ok () := by
  unfold _validate_fft_params
  rw [if_neg (by omega), if_neg (by omega),
    if_neg (not_not_intro ((_is_power_of_two_iff f).mpr h3))]

lemma validate_err1 (w hp f : ℕ) (h : f < w) :
    _validate_fft_params w hp f = .error "fft_size must be >= window_size" := by
  unfold _validate_fft_params
  rw [if_pos h]

lemma validate_err2 (w hp f : ℕ) (h1 : ¬ f < w) (h2 : hp = 0) :
    _validate_fft_params w hp f = .error "hop_size must be positive" := by
  unfold _validate_fft_params
  rw [if_neg h1, if_pos (by omega)]

lemma validate_err3 (w hp f : ℕ) (h1 : ¬ f < w) (h2 : 0 < hp)
    (h3 : ¬ ∃ k, f = 2 ^ k) :
    _validate_fft_params w hp f
      = .error "fft_size must be a power of two for fft_fast" := by
  unfold _validate_fft_params
  rw [if_neg h1, if_neg (by omega),
    if_pos (fun hb => h3 ((_is_power_of_two_iff f).mp hb))]

/-- C5: for every size > 1 the Hann window is the length-`size` list with
`w[i] = 0.5·(1 − cos(2π·i/(size−1)))` (symmetric variant, denominator
`size − 1`); size ≤ 1 fails with the window-size error; the size-5 window
is exactly `[0, 0.5, 1, 0.5, 0]`. -/
theorem C5_hann_window_spec :
    (∀ size : ℕ, 1 < size →
      ∃ w, hann_window size = Except.ok w ∧ w.length = size ∧
        ∀ i, i < size → w.getD i 0
          = 0.5 * (1 - Real.cos ((2 * Real.pi * i) / ((size : ℝ) - 1)))) ∧
    (∀ size : ℕ, size ≤ 1 →
      hann_window size = Except.error "window_size must be greater than 1") ∧
    hann_window 5 = Except.ok [0, 0.5, 1, 0.5, 0] := by
  refine ⟨fun size hsize => ?_, fun size hsize => hann_window_err size hsize, ?_⟩
  · refine ⟨_, hann_window_ok size hsize, by simp, fun i hi => ?_⟩
    rw [List.getD_eq_getElem _ _ (by simpa using hi), List.getElem_map,
      List.getElem_range]
  · rw [hann_window_ok 5 (by norm_num),
      show List.range 5 = [0, 1, 2, 3, 4] from rfl]
    simp only [List.map_cons, List.map_nil, Except.ok.injEq, List.cons.injEq,
      and_true]
    refine ⟨?_, ?_, ?_, ?_, ?_⟩
    · rw [show (2 * Real.pi * ((0 : ℕ) : ℝ)) / (((5 : ℕ) : ℝ) - 1) = 0 from by
        push_cast
        ring]
      rw [Real.cos_zero]
      norm_num
    · rw [show (2 * Real.pi * ((1 : ℕ) : ℝ)) / (((5 : ℕ) : ℝ) - 1)
          = Real.pi / 2 from by
        push_cast
        ring]
      rw [Real.cos_pi_div_two]
      norm_num
    · rw [show (2 * Real.pi * ((2 : ℕ) : ℝ)) / (((5 : ℕ) : ℝ) - 1)
          = Real.pi from by
        push_cast
        ring]
      rw [Real.cos_pi]
      norm_num
    · rw [show (2 * Real.pi * ((3 : ℕ) : ℝ)) / (((5 : ℕ) : ℝ) - 1)
          = Real.pi + Real.pi / 2 from by
        push_cast
        ring]
      rw [Real.cos_add, Real.cos_pi, Real.sin_pi, Real.cos_pi_div_two]
      norm_num
    · rw [show (2 * Real.pi * ((4 : ℕ) : ℝ)) / (((5 : ℕ) : ℝ) - 1)
          = 2 * Real.pi from by
        push_cast
        ring]
      rw [Real.cos_two_pi]
      norm_num

/-- Witness for C5: the size-4 window exists with the pinned formula, and
size 1 fails. -/
theorem C5_hann_window_spec_witness :
    (∃ w, hann_window 4 = Except.ok w ∧ w.length = 4 ∧
      ∀ i, i < 4 → w.getD i 0
        = 0.5 * (1 - Real.cos ((2 * Real.pi * i) / (((4 : ℕ) : ℝ) - 1)))) ∧
    hann_window 1 = Except.error "window_size must be greater than 1" :=
  ⟨C5_hann_window_spec.1 4 (by norm_num), C5_hann_window_spec.2.1 1 (by norm_num)⟩


/-- C7: each of the four STFT parameter constraints raises its own distinct
error before any transform computation (the error depends only on the
parameters, never on the frame/signal data), and the ISTFT entry point
applies the same three `_validate_fft_params` checks to its column count. -/
theorem C7_param_validation :
    (∀ (signal : List ℝ) (w hp f : ℕ),
      (f < w → compute_stft_frames signal w hp f
          = Except.error "fft_size must be >= window_size") ∧
      (¬ f < w → hp = 0 → compute_stft_frames signal w hp f
          = Except.error "hop_size must be positive") ∧
      (¬ f < w → 0 < hp → (¬ ∃ k, f = 2 ^ k) → compute_stft_frames signal w hp f
          = Except.error "fft_size must be a power of two for fft_fast") ∧
      (w ≤ f → 0 < hp → (∃ k, f = 2 ^ k) → signal.length < w →
        compute_stft_frames signal w hp f
          = Except.error "signal must be at least as long as window_size")) ∧
    (∀ (frames : List (List ℂ)) (w hp : ℕ),
      ((frames.headD []).length < w → inverse_stft frames w hp
          = Except.error "fft_size must be >= window_size") ∧
      (¬ (frames.headD []).length < w → hp = 0 → inverse_stft frames w hp
          = Except.error "hop_size must be positive") ∧
      (¬ (frames.headD []).length < w → 0 < hp →
        (¬ ∃ k, (frames.headD []).length = 2 ^ k) → inverse_stft frames w hp
          = Except.error "fft_size must be a power of two for fft_fast")) := by
  constructor
  · intro signal w hp f
    refine ⟨fun h => ?_, fun h1 h2 => ?_, fun h1 h2 h3 => ?_, fun h1 h2 h3 h4 => ?_⟩
    · unfold compute_stft_frames
      rw [validate_err1 w hp f h]
      rfl
    · unfold compute_stft_frames
      rw [validate_err2 w hp f h1 h2]
      rfl
    · unfold compute_stft_frames
      rw [validate_err3 w hp f h1 h2 h3]
      rfl
    · unfold compute_stft_frames
      rw [validate_ok w hp f h1 h2 h3]
      show (if signal.length < w then _ else _) = _
      rw [if_pos h4]
  · intro frames w hp
    refine ⟨fun h => ?_, fun h1 h2 => ?_, fun h1 h2 h3 => ?_⟩
    · unfold inverse_stft
      rw [validate_err1 w hp _ h]
      rfl
    · unfold inverse_stft
      rw [validate_err2 w hp _ h1 h2]
      rfl
    · unfold inverse_stft
      rw [validate_err3 w hp _ h1 h2 h3]
      rfl

/-- Witness for C7 at concrete inputs: fft_size 1 below window_size 2,
zero hop size, non-power-of-two fft_size 3, a too-short signal, and an
ISTFT frame matrix whose column count 1 is below window_size 2. -/
theorem C7_param_validation_witness :
    compute_stft_frames [0] 2 1 1
        = Except.error "fft_size must be >= window_size" ∧
    compute_stft_frames [0] 2 0 2
        = Except.error "hop_size must be positive" ∧
    compute_stft_frames [0] 2 1 3
        = Except.error "fft_size must be a power of two for fft_fast" ∧
    compute_stft_frames [0] 2 1 2
        = Except.error "signal must be at least as long as window_size" ∧
    inverse_stft [[1]] 2 1 = Except.error "fft_size must be >= window_size" :=
  ⟨(C7_param_validation.1 [0] 2 1 1).1 (by norm_num),
   (C7_param_validation.1 [0] 2 0 2).2.1 (by norm_num) rfl,
   (C7_param_validation.1 [0] 2 1 3).2.2.1 (by norm_num) (by norm_num)
     not_pow2_three,
   (C7_param_validation.1 [0] 2 1 2).2.2.2 (by norm_num) (by norm_num)
     ⟨1, by norm_num⟩ (by norm_num),
   (C7_param_validation.2 [[1]] 2 1).1 (by
     show (1 : ℕ) < 2
     norm_num)⟩

/-- C10: even with all four documented Framer constraints satisfied,
window_size ≤ 1 still makes `compute_stft_frames` fail, with the Window
Function's own error message — an additional undocumented precondition. -/
theorem C10_window_size_gap :
    ∀ (signal : List ℝ) (w hp f : ℕ), w ≤ 1 → w ≤ f → 0 < hp →
      (∃ k, f = 2 ^ k) → w ≤ signal.length →
      compute_stft_frames signal w hp f
        = Except.error "window_size must be greater than 1" := by
  intro signal w hp f hw hwf hhp hf hlen
  unfold compute_stft_frames
  rw [validate_ok w hp f hwf hhp hf]
  show (if signal.length < w then _ else _) = _
  rw [if_neg (by omega), hann_window_err w hw]
  rfl

/-- Witness for C10: signal `[0, 0]`, window_size 1, hop_size 1,
fft_size 2 satisfies all four documented constraints yet fails. -/
theorem C10_window_size_gap_witness :
    compute_stft_frames [0, 0] 1 1 2
      = Except.error "window_size must be greater than 1" :=
  C10_window_size_gap [0, 0] 1 1 2 (by norm_num) (by norm_num) (by norm_num)
    ⟨1, by norm_num⟩ (by norm_num)


/-! ## Claim theorems: the Framer -/

lemma mapM_ok {α β : Type} (f : α → Except String β) (g : α → β) (l : List α)
    (h : ∀ a ∈ l, f a = .ok (g a)) : l.mapM f = .ok (l.map g) := by
  induction l with
  | nil => rfl
  | cons a l ih =>
    rw [List.mapM_cons, h a (by simp), ih (fun a ha => h a (by simp [ha]))]
    rfl

/-- The Hann window curve as a plain list (the payload of `hann_window`). -/
def hannList (w : ℕ) : List ℝ :=
  (List.range w).map (fun i : ℕ =>
    0.5 * (1 - Real.cos ((2 * Real.pi * (i : ℝ)) / ((w : ℝ) - 1))))

lemma hann_window_ok_list (w : ℕ) (h : 1 < w) :
    hann_window w = Except.ok (hannList w) :=
  hann_window_ok w h

lemma hannList_length (w : ℕ) : (hannList w).length = w := by
  unfold hannList
  simp

/-- The padded, windowed frame fed to the transform for frame `k`. -/
def framePadded (signal : List ℝ) (w f k hp : ℕ) : List ℂ :=
  (List.zipWith (fun s h => ((s * h : ℝ) : ℂ))
      ((signal.drop (k * hp)).take w) (hannList w))
    ++ List.replicate (f - w) 0

lemma framePadded_length (signal : List ℝ) (w f k hp : ℕ) (hwf : w ≤ f)
    (hk : k * hp + w ≤ signal.length) :
    (framePadded signal w f k hp).length = f := by
  unfold framePadded
  rw [List.length_append, List.length_zipWith, List.length_take,
    List.length_drop, hannList_length, List.length_replicate]
  omega

lemma frame_start_le (L w hp k : ℕ) (_hhp : 0 < hp) (hw : w ≤ L)
    (hk : k < 1 + (L - w) / hp) : k * hp + w ≤ L := by
  have h1 : k ≤ (L - w) / hp := by omega
  have h2 : k * hp ≤ ((L - w) / hp) * hp := Nat.mul_le_mul_right hp h1
  have h3 : ((L - w) / hp) * hp ≤ L - w := Nat.div_mul_le_self (L - w) hp
  omega

lemma compute_stft_frames_ok (signal : List ℝ) (w hp f : ℕ)
    (hw : 1 < w) (hwf : w ≤ f) (hhp : 0 < hp) (hf : ∃ k, f = 2 ^ k)
    (hlen : w ≤ signal.length) :
    compute_stft_frames signal w hp f = Except.ok
      ((List.range (1 + (signal.length - w) / hp)).map
        (fun k => _fft_fast_impl (framePadded signal w f k hp))) := by
  unfold compute_stft_frames
  rw [validate_ok w hp f hwf hhp hf]
  show (if signal.length < w then _ else _) = _
  rw [if_neg (by omega), hann_window_ok_list w hw]
  show (List.range (1 + (signal.length - w) / hp)).mapM _ = _
  apply mapM_ok
  intro k hk
  rw [List.mem_range] at hk
  show fft_fast (framePadded signal w f k hp) = _
  rw [fft_fast_ok _ (by
    rw [framePadded_length signal w f k hp hwf
      (frame_start_le signal.length w hp k hhp hlen hk)]
    exact hf)]

/-- C6: for valid parameters and a signal of length at least W, the Framer
returns exactly `1 + ⌊(L − W)/H⌋` rows, each of length F, and row `k` is
the forward transform of the signal slice starting at `k·H`, windowed by
the Hann curve and zero-padded to length F; in particular L=32, W=8, H=4,
F=8 gives exactly 7 frames of length 8. -/
theorem C6_stft_frames :
    (∀ (signal : List ℝ) (w hp f : ℕ), 1 < w → w ≤ f → 0 < hp →
      (∃ k, f = 2 ^ k) → w ≤ signal.length →
      ∃ frames, compute_stft_frames signal w hp f = Except.ok frames ∧
        frames.length = 1 + (signal.length - w) / hp ∧
        (∀ row ∈ frames, row.length = f) ∧
        (∀ k, k < 1 + (signal.length - w) / hp →
          frames.getD k [] = _fft_fast_impl (framePadded signal w f k hp))) ∧
    (∀ signal : List ℝ, signal.length = 32 →
      ∃ frames, compute_stft_frames signal 8 4 8 = Except.ok frames ∧
        frames.length = 7 ∧ ∀ row ∈ frames, row.length = 8) := by
  have hgen : ∀ (signal : List ℝ) (w hp f : ℕ), 1 < w → w ≤ f → 0 < hp →
      (∃ k, f = 2 ^ k) → w ≤ signal.length →
      ∃ frames, compute_stft_frames signal w hp f = Except.ok frames ∧
        frames.length = 1 + (signal.length - w) / hp ∧
        (∀ row ∈ frames, row.length = f) ∧
        (∀ k, k < 1 + (signal.length - w) / hp →
          frames.getD k [] = _fft_fast_impl (framePadded signal w f k hp)) := by
    intro signal w hp f hw hwf hhp hf hlen
    refine ⟨_, compute_stft_frames_ok signal w hp f hw hwf hhp hf hlen,
      by simp, ?_, ?_⟩
    · intro row hrow
      rw [List.mem_map] at hrow
      obtain ⟨k, hk, rfl⟩ := hrow
      rw [List.mem_range] at hk
      rw [_fft_fast_impl_length,
        framePadded_length signal w f k hp hwf
          (frame_start_le signal.length w hp k hhp hlen hk)]
    · intro k hk
      rw [List.getD_eq_getElem _ _ (by simpa using hk), List.getElem_map,
        List.getElem_range]
  refine ⟨hgen, fun signal hsig => ?_⟩
  obtain ⟨frames, hok, hcount, hrows, -⟩ :=
    hgen signal 8 4 8 (by norm_num) (by norm_num) (by norm_num)
      ⟨3, by norm_num⟩ (by omega)
  exact ⟨frames, hok, by rw [hcount, hsig], hrows⟩

/-- Witness for C6 at the concrete all-zero signal of length 32 with
window 8, hop 4, transform size 8. -/
theorem C6_stft_frames_witness :
    ∃ frames,
      compute_stft_frames (List.replicate 32 0) 8 4 8 = Except.ok frames ∧
      frames.length = 7 ∧ ∀ row ∈ frames, row.length = 8 :=
  C6_stft_frames.2 (List.replicate 32 0) (by simp)


/-! ## Claim theorems: the Reconstructor -/

/-- The raw overlap-added output buffer of `inverse_stft` (before the
masked normalisation): position `n` accumulates, over every frame `k`
covering it, the real part of sample `n − k·H` of that frame's inverse
transform — with no synthesis-window multiplication. -/
def istftRaw (frames : List (List ℂ)) (w hp n : ℕ) : ℝ :=
  ∑ k ∈ Finset.range frames.length,
    if k * hp ≤ n ∧ n < k * hp + w
    then ((_ifft_fast_impl (frames.getD k [])).getD (n - k * hp) 0).re else 0

/-- The accumulated window weight of `inverse_stft` at position `n`:
the sum of the raw (un-squared) Hann values of every covering frame. -/
def istftAccum (frames : List (List ℂ)) (w hp n : ℕ) : ℝ :=
  ∑ k ∈ Finset.range frames.length,
    if k * hp ≤ n ∧ n < k * hp + w then (hannList w).getD (n - k * hp) 0 else 0

lemma ok_bind {α β : Type} (a : α) (g : α → Except String β) :
    (Except.ok a : Except String α) >>= g = g a := rfl

lemma except_bind_ok {α β : Type} (a : α) (g : α → Except String β) :
    Except.bind (Except.ok a) g = g a := rfl

lemma istft_fold (frames : List (List ℂ)) (w hp : ℕ) (hann : List ℝ)
    (hrows : ∀ k, k < frames.length → ∃ j, (frames.getD k []).length = 2 ^ j) :
    ∀ m, m ≤ frames.length →
    (List.range m).foldlM (istftIter frames w hp hann)
        ((fun _ => (0 : ℝ)), (fun _ => (0 : ℝ)))
      = Except.ok
        (fun n => ∑ k ∈ Finset.range m,
          if k * hp ≤ n ∧ n < k * hp + w
          then ((_ifft_fast_impl (frames.getD k [])).getD (n - k * hp) 0).re
          else 0,
         fun n => ∑ k ∈ Finset.range m,
          if k * hp ≤ n ∧ n < k * hp + w
          then hann.getD (n - k * hp) 0 else 0) := by
  intro m
  induction m with
  | zero =>
    intro _hm
    simp only [List.range_zero, List.foldlM_nil, Finset.sum_range_zero]
    rfl
  | succ m ih =>
    intro hm
    rw [List.range_succ, List.foldlM_append, ih (by omega)]
    simp only [ok_bind, List.foldlM_cons, List.foldlM_nil]
    obtain ⟨j, hj⟩ := hrows m (by omega)
    unfold istftIter
    rw [ifft_fast_ok _ ⟨j, hj⟩]
    simp only [except_bind_ok, ok_bind]
    show Except.ok _ = _
    congr 1
    simp only [Prod.mk.injEq]
    constructor <;> funext n
    · rw [Finset.sum_range_succ]
      by_cases hc : m * hp ≤ n ∧ n < m * hp + w
      · rw [if_pos hc, if_pos hc]
      · rw [if_neg hc, if_neg hc, add_zero]
    · rw [Finset.sum_range_succ]
      by_cases hc : m * hp ≤ n ∧ n < m * hp + w
      · rw [if_pos hc, if_pos hc]
      · rw [if_neg hc, if_neg hc, add_zero]

lemma inverse_stft_ok (frames : List (List ℂ)) (w hp F : ℕ)
    (hw : 1 < w) (hwf : w ≤ F) (hhp : 0 < hp) (hF : ∃ k, F = 2 ^ k)
    (hhead : (frames.headD []).length = F)
    (hrect : ∀ row ∈ frames, row.length = F) :
    inverse_stft frames w hp = Except.ok
      ((List.range ((frames.length - 1) * hp + w)).map
        (fun n => if istftAccum frames w hp n > 1e-12
          then istftRaw frames w hp n / istftAccum frames w hp n
          else istftRaw frames w hp n)) := by
  unfold inverse_stft
  rw [hhead, validate_ok w hp F hwf hhp hF]
  simp only [except_bind_ok]
  rw [hann_window_ok_list w hw]
  simp only [except_bind_ok]
  have hrows : ∀ k, k < frames.length →
      ∃ j, (frames.getD k []).length = 2 ^ j := by
    intro k hk
    obtain ⟨j, hj⟩ := hF
    refine ⟨j, ?_⟩
    rw [List.getD_eq_getElem _ _ hk, hrect _ (List.getElem_mem hk), hj]
  rw [istft_fold frames w hp (hannList w) hrows frames.length le_rfl]
  rfl


lemma hannList_two : hannList 2 = [0, 0] := by
  unfold hannList
  rw [show List.range 2 = [0, 1] from rfl]
  simp only [List.map_cons, List.map_nil, List.cons.injEq, and_true]
  constructor
  · rw [show (2 * Real.pi * ((0 : ℕ) : ℝ)) / (((2 : ℕ) : ℝ) - 1) = 0 from by
      push_cast
      ring]
    rw [Real.cos_zero]
    norm_num
  · rw [show (2 * Real.pi * ((1 : ℕ) : ℝ)) / (((2 : ℕ) : ℝ) - 1)
        = 2 * Real.pi from by
      push_cast
      ring]
    rw [Real.cos_two_pi]
    norm_num

lemma ifftImpl_pair : _ifft_fast_impl [1, 1] = [1, 0] := by
  have h := ifft_pair
  rw [ifft_fast_ok [1, 1] ⟨1, by norm_num⟩] at h
  exact Except.ok.inj h

lemma istft_pair_eval : inverse_stft [[1, 1]] 2 1 = Except.ok [1, 0] := by
  rw [inverse_stft_ok [[1, 1]] 2 1 2 (by norm_num) (by norm_num) (by norm_num)
    ⟨1, by norm_num⟩ rfl (by
      intro row hrow
      rw [show row ∈ [[(1 : ℂ), 1]] ↔ row = [1, 1] from List.mem_singleton] at hrow
      rw [hrow]
      rfl)]
  rw [show List.range ((([[(1 : ℂ), 1]] : List (List ℂ)).length - 1) * 1 + 2)
      = [0, 1] from rfl]
  simp only [List.map_cons, List.map_nil]
  unfold istftRaw istftAccum
  simp only [show ([[(1 : ℂ), 1]] : List (List ℂ)).length = 1 from rfl,
    Finset.sum_range_one, hannList_two,
    show ([[(1 : ℂ), 1]] : List (List ℂ)).getD 0 [] = [1, 1] from rfl,
    ifftImpl_pair]
  norm_num [List.getD]

/-- C8 (amended): for a frame matrix with at least one row and valid
parameters, `inverse_stft` returns a signal of length `(R−1)·H + W` in
which positions whose accumulated window weight exceeds 1e-12 hold the
overlap-added sum divided by that weight, and positions at or below the
threshold are left *undivided*, holding the raw overlap-added sum. -/
theorem C8_istft_output :
    ∀ (frames : List (List ℂ)) (w hp F : ℕ), 1 ≤ frames.length → 1 < w →
      w ≤ F → 0 < hp → (∃ k, F = 2 ^ k) → (∀ row ∈ frames, row.length = F) →
      ∃ out, inverse_stft frames w hp = Except.ok out ∧
        out.length = (frames.length - 1) * hp + w ∧
        (∀ n, n < out.length →
          out.getD n 0 = if istftAccum frames w hp n > 1e-12
            then istftRaw frames w hp n / istftAccum frames w hp n
            else istftRaw frames w hp n) := by
  intro frames w hp F hR hw hwf hhp hF hrect
  have hhead : (frames.headD []).length = F := by
    rcases frames with _ | ⟨r, rest⟩
    · simp at hR
    · exact hrect r (by simp)
  refine ⟨_, inverse_stft_ok frames w hp F hw hwf hhp hF hhead hrect,
    by simp, ?_⟩
  intro n hn
  rw [List.getD_eq_getElem _ _ hn, List.getElem_map, List.getElem_range]

/-- Witness for C8 at the concrete one-row frame matrix `[[1, 1]]` with
window 2 and hop 1. -/
theorem C8_istft_output_witness :
    ∃ out, inverse_stft [[1, 1]] 2 1 = Except.ok out ∧
      out.length = (([[(1 : ℂ), 1]] : List (List ℂ)).length - 1) * 1 + 2 ∧
      (∀ n, n < out.length →
        out.getD n 0 = if istftAccum [[1, 1]] 2 1 n > 1e-12
          then istftRaw [[1, 1]] 2 1 n / istftAccum [[1, 1]] 2 1 n
          else istftRaw [[1, 1]] 2 1 n) :=
  C8_istft_output [[1, 1]] 2 1 2 (by norm_num) (by norm_num) (by norm_num)
    (by norm_num) ⟨1, by norm_num⟩ (by
      intro row hrow
      rw [show row ∈ [[(1 : ℂ), 1]] ↔ row = [1, 1] from List.mem_singleton] at hrow
      rw [hrow]
      rfl)

/-- Counterexample to C8 as stated: on the frame matrix `[[1, 1]]` with
window 2 and hop 1 the accumulated window weight at position 0 is 0 ≤ 1e-12
(the size-2 Hann window is identically zero), yet the returned signal holds
1 there, not 0 — the masked division leaves the raw sum, it does not zero
the position. -/
theorem C8_eps_counterexample :
    inverse_stft [[1, 1]] 2 1 = Except.ok [1, 0] ∧
    istftAccum [[1, 1]] 2 1 0 ≤ 1e-12 ∧
    ¬ (([1, 0] : List ℝ).getD 0 0 = 0) := by
  refine ⟨istft_pair_eval, ?_, by norm_num [List.getD]⟩
  unfold istftAccum
  simp only [show ([[(1 : ℂ), 1]] : List (List ℂ)).length = 1 from rfl,
    Finset.sum_range_one, hannList_two]
  norm_num [List.getD]

/-- C2 (amended): each row's contribution in `inverse_stft` adds the raw
real part of the first W samples of that row's inverse transform into the
output buffer at offset `k·H` — with no multiplication by the window curve
— while the raw (un-squared) window curve is added into the accumulator at
the same offset. -/
theorem C2_istft_row_step :
    ∀ (frames : List (List ℂ)) (w hp : ℕ) (hann : List ℝ)
      (st : (ℕ → ℝ) × (ℕ → ℝ)) (k : ℕ),
      (∃ j, (frames.getD k []).length = 2 ^ j) →
      istftIter frames w hp hann st k = Except.ok
        (fun n => if k * hp ≤ n ∧ n < k * hp + w
            then st.1 n
              + ((_ifft_fast_impl (frames.getD k [])).getD (n - k * hp) 0).re
            else st.1 n,
         fun n => if k * hp ≤ n ∧ n < k * hp + w
            then st.2 n + hann.getD (n - k * hp) 0 else st.2 n) := by
  intro frames w hp hann st k hpow
  unfold istftIter
  rw [ifft_fast_ok _ hpow]
  rfl

/-- Witness for C2 at the concrete one-row frame matrix `[[1, 1]]` with
window 2, hop 1, the all-zero starting buffers and row 0. -/
theorem C2_istft_row_step_witness :
    istftIter [[1, 1]] 2 1 [0, 0] ((fun _ => 0), (fun _ => 0)) 0
      = Except.ok
        (fun n => if 0 * 1 ≤ n ∧ n < 0 * 1 + 2
            then (0 : ℝ)
              + ((_ifft_fast_impl (([[1, 1]] : List (List ℂ)).getD 0 [])).getD
                  (n - 0 * 1) 0).re
            else 0,
         fun n => if 0 * 1 ≤ n ∧ n < 0 * 1 + 2
            then (0 : ℝ) + ([0, 0] : List ℝ).getD (n - 0 * 1) 0 else 0) :=
  C2_istft_row_step [[1, 1]] 2 1 [0, 0] ((fun _ => 0), (fun _ => 0)) 0
    ⟨1, by norm_num⟩

/-- Counterexample to C2 as stated: the spec-worded Reconstructor
(`inverse_stft_spec`, which multiplies each synthesised segment by the
window before overlap-adding) disagrees with the source's `inverse_stft`
on the frame matrix `[[1, 1]]` with window 2 and hop 1: the source returns
`[1, 0]` while the windowed-synthesis version returns `[0, 0]`. -/
theorem C2_synthesis_window_counterexample :
    inverse_stft [[1, 1]] 2 1 = Except.ok [1, 0] ∧
    inverse_stft_spec [[1, 1]] 2 1 = Except.ok [0, 0] ∧
    ¬ (([1, 0] : List ℝ) = [0, 0]) := by
  refine ⟨istft_pair_eval, ?_, by norm_num⟩
  unfold inverse_stft_spec
  rw [show (([[(1 : ℂ), 1]] : List (List ℂ)).headD []).length = 2 from rfl,
    validate_ok 2 1 2 (by norm_num) (by norm_num) ⟨1, by norm_num⟩]
  simp only [except_bind_ok]
  rw [hann_window_ok_list 2 (by norm_num)]
  simp only [except_bind_ok]
  rw [show List.range ([[(1 : ℂ), 1]] : List (List ℂ)).length = [0] from rfl]
  simp only [List.foldlM_cons, List.foldlM_nil]
  unfold istftIterSpec
  rw [show ([[(1 : ℂ), 1]] : List (List ℂ)).getD 0 [] = [1, 1] from rfl,
    ifft_pair]
  simp only [except_bind_ok, ok_bind]
  show Except.ok _ = _
  congr 1
  rw [show List.range ((([[(1 : ℂ), 1]] : List (List ℂ)).length - 1) * 1 + 2)
      = [0, 1] from rfl]
  simp only [List.map_cons, List.map_nil, hannList_two]
  norm_num [List.getD]


/-! ## Claim theorem: analysis followed by synthesis reconstructs -/

lemma framePadded_getD (signal : List ℝ) (w f k hp j : ℕ) (hj : j < w)
    (hkw : k * hp + w ≤ signal.length) :
    (framePadded signal w f k hp).getD j 0
      = ((signal.getD (k * hp + j) 0 * (hannList w).getD j 0 : ℝ) : ℂ) := by
  unfold framePadded
  have hseg : ((signal.drop (k * hp)).take w).length = w := by
    rw [List.length_take, List.length_drop]
    omega
  have hzip : (List.zipWith (fun s h => ((s * h : ℝ) : ℂ))
      ((signal.drop (k * hp)).take w) (hannList w)).length = w := by
    rw [List.length_zipWith, hseg, hannList_length]
    omega
  rw [List.getD_append _ _ _ _ (by rw [hzip]; exact hj),
    List.getD_eq_getElem _ _ (by rw [hzip]; exact hj), List.getElem_zipWith]
  congr 2
  · rw [List.getElem_take, List.getElem_drop,
      List.getD_eq_getElem _ _ (by omega : k * hp + j < signal.length)]
  · rw [List.getD_eq_getElem _ _ (by rw [hannList_length]; exact hj)]

/-- C9: composing the Reconstructor after the Framer reproduces the input
signal exactly at every sample position whose accumulated window weight
exceeds the 1e-12 threshold (in particular everywhere the signal is covered
by full window overlap); only positions whose accumulated weight falls at
or below the threshold — the partially covered edges — may differ. -/
theorem C9_stft_istft_roundtrip :
    ∀ (signal : List ℝ) (w hp f : ℕ), 1 < w → w ≤ f → 0 < hp →
      (∃ k, f = 2 ^ k) → w ≤ signal.length →
      ∃ frames out,
        compute_stft_frames signal w hp f = Except.ok frames ∧
        inverse_stft frames w hp = Except.ok out ∧
        ∀ n, n < out.length → istftAccum frames w hp n > 1e-12 →
          out.getD n 0 = signal.getD n 0 := by
  intro signal w hp f hw hwf hhp hf hlen
  obtain ⟨j, hfj⟩ := hf
  have hframes := compute_stft_frames_ok signal w hp f hw hwf hhp ⟨j, hfj⟩ hlen
  set R := 1 + (signal.length - w) / hp with hR
  set frames := (List.range R).map
      (fun k => _fft_fast_impl (framePadded signal w f k hp)) with hFdef
  have hRlen : frames.length = R := by
    rw [hFdef, List.length_map, List.length_range]
  have hgetk : ∀ k, k < R →
      frames.getD k [] = _fft_fast_impl (framePadded signal w f k hp) := by
    intro k hk
    rw [hFdef, List.getD_eq_getElem _ _ (by
        rw [List.length_map, List.length_range]
        exact hk),
      List.getElem_map, List.getElem_range]
  have hrect : ∀ row ∈ frames, row.length = f := by
    intro row hrow
    rw [hFdef, List.mem_map] at hrow
    obtain ⟨k, hk, rfl⟩ := hrow
    rw [List.mem_range] at hk
    rw [_fft_fast_impl_length,
      framePadded_length signal w f k hp hwf
        (frame_start_le signal.length w hp k hhp hlen (by omega))]
  have hR1 : 0 < R := by
    rw [hR]
    exact Nat.lt_of_lt_of_le Nat.one_pos (Nat.le_add_right 1 _)
  have hhead : (frames.headD []).length = f := by
    have h0 : frames.getD 0 [] = _fft_fast_impl (framePadded signal w f 0 hp) :=
      hgetk 0 hR1
    rcases hcase : frames with _ | ⟨r, rest⟩
    · rw [hcase] at hRlen
      simp at hRlen
      exact absurd hRlen.symm (Nat.pos_iff_ne_zero.mp hR1)
    · rw [hcase] at h0
      show r.length = f
      rw [show r = _fft_fast_impl (framePadded signal w f 0 hp) from h0,
        _fft_fast_impl_length,
        framePadded_length signal w f 0 hp hwf (by simpa using hlen)]
  have hout := inverse_stft_ok frames w hp f hw hwf hhp ⟨j, hfj⟩ hhead hrect
  refine ⟨frames, _, hframes, hout, ?_⟩
  intro n hn haccum
  have hεpos : (0 : ℝ) < 1e-12 := by norm_num
  have haccne : istftAccum frames w hp n ≠ 0 := by
    intro h0
    rw [h0] at haccum
    linarith
  have hentry : ((List.range ((frames.length - 1) * hp + w)).map
      (fun n => if istftAccum frames w hp n > 1e-12
        then istftRaw frames w hp n / istftAccum frames w hp n
        else istftRaw frames w hp n)).getD n 0
      = istftRaw frames w hp n / istftAccum frames w hp n := by
    rw [List.getD_eq_getElem _ _ (by simpa using hn), List.getElem_map,
      List.getElem_range, if_pos haccum]
  rw [hentry]
  have hraw : istftRaw frames w hp n
      = signal.getD n 0 * istftAccum frames w hp n := by
    unfold istftRaw istftAccum
    rw [Finset.mul_sum]
    refine Finset.sum_congr rfl (fun k hk => ?_)
    rw [Finset.mem_range, hRlen] at hk
    by_cases hc : k * hp ≤ n ∧ n < k * hp + w
    · rw [if_pos hc, if_pos hc, hgetk k hk]
      have hkw : k * hp + w ≤ signal.length :=
        frame_start_le signal.length w hp k hhp hlen (by omega)
      rw [ifft_fft_impl (framePadded signal w f k hp) j (by
          rw [framePadded_length signal w f k hp hwf hkw]
          exact hfj)]
      rw [framePadded_getD signal w f k hp (n - k * hp) (by omega) hkw]
      rw [Complex.ofReal_re, show k * hp + (n - k * hp) = n from by omega]
    · rw [if_neg hc, if_neg hc, mul_zero]
  rw [hraw, mul_div_assoc, div_self haccne, mul_one]

/-- Witness for C9 at the concrete signal `[1, 2, 3, 4]` with window 2,
hop 1 and transform size 2. -/
theorem C9_stft_istft_roundtrip_witness :
    ∃ frames out,
      compute_stft_frames [1, 2, 3, 4] 2 1 2 = Except.ok frames ∧
      inverse_stft frames 2 1 = Except.ok out ∧
      ∀ n, n < out.length → istftAccum frames 2 1 n > 1e-12 →
        out.getD n 0 = ([1, 2, 3, 4] : List ℝ).getD n 0 :=
  C9_stft_istft_roundtrip [1, 2, 3, 4] 2 1 2 (by norm_num) (by norm_num)
    (by norm_num) ⟨1, by norm_num⟩ (by norm_num)

end

end SignalEq
